import Mathlib

/-!
Shallow embedding of the Huffman-coding file compressor
(`file_compressor.py`) and proofs of the specification claims.

Conventions of the embedding:
* a Python `str` of text is a `List Char`;
* a Python bit string (a `str` over the characters '0' and '1') is a
  `List Bool`, with '0' ↦ `false` and '1' ↦ `true`;
* a Python `bytes` value is a `List Nat` whose elements are below 256;
* a Python `dict` (frequency table, code table) is an association list
  `List (key × value)`; the dictionaries built by this program always
  have pairwise-distinct keys (a `Counter` and a table with one entry
  per distinct tree leaf), so `List.lookup` agrees with dict lookup;
* Python functions that can raise an uncaught exception are embedded
  with an `Option` result, `none` marking the raised exception.
-/

set_option autoImplicit false

namespace FileCompressor

/-- Node in the Huffman tree (`class HuffmanNode`): an optional character
(`None` on internal nodes), a frequency, and optional left/right children
(`None` until assigned, and `None` forever on leaves). -/
inductive HuffmanNode where
  | mk (char : Option Char) (freq : Nat) (left : Option HuffmanNode) (right : Option HuffmanNode)

def HuffmanNode.char : HuffmanNode → Option Char
  | .mk c _ _ _ => c

def HuffmanNode.freq : HuffmanNode → Nat
  | .mk _ f _ _ => f

def HuffmanNode.left : HuffmanNode → Option HuffmanNode
  | .mk _ _ l _ => l

def HuffmanNode.right : HuffmanNode → Option HuffmanNode
  | .mk _ _ _ r => r

/-- `HuffmanNode.is_leaf`: `self.char is not None`. -/
def HuffmanNode.is_leaf (n : HuffmanNode) : Bool :=
  n.char.isSome

/-- One step of `collections.Counter`: increment the count of `c`,
keeping first-occurrence key order (Python dicts preserve insertion
order), inserting a fresh key with count 1 at the end. -/
def addCount : List (Char × Nat) → Char → List (Char × Nat)
  | [], c => [(c, 1)]
  | (a, n) :: rest, c => if a = c then (a, n + 1) :: rest else (a, n) :: addCount rest c

/-- `build_frequency_table(text)`: `Counter(text)` as an association
list with pairwise-distinct keys, one per distinct character. -/
def build_frequency_table (text : List Char) : List (Char × Nat) :=
  text.foldl addCount []

/-- Model of `heapq.heappop` on a list of `HuffmanNode`: removes and
returns a node of minimal `freq` (the first such node; `HuffmanNode.__lt__`
compares by `freq` only, so tie-breaking among equal frequencies is
arbitrary, which the surrounding code never relies on). -/
def popMin : List HuffmanNode → Option (HuffmanNode × List HuffmanNode)
  | [] => none
  | x :: xs =>
    match popMin xs with
    | none => some (x, [])
    | some (y, ys) => if y.freq < x.freq then some (y, x :: ys) else some (x, xs)

/-- The `while len(heap) > 1` merge loop of `build_huffman_tree`: pop the
two lowest-frequency nodes (`left` first, then `right`), push an internal
node combining them, and repeat until one node remains.  The loop removes
one node per iteration, so a fuel of `length - 1` iterations always
suffices; the fuel argument only makes the recursion structural. -/
def buildLoop : Nat → List HuffmanNode → Option HuffmanNode
  | _, [] => none
  | _, [t] => some t
  | 0, _ :: _ :: _ => none
  | fuel + 1, l@(_ :: _ :: _) =>
    match popMin l with
    | none => none
    | some (left, rest) =>
      match popMin rest with
      | none => some left
      | some (right, rest2) =>
        buildLoop fuel (HuffmanNode.mk none (left.freq + right.freq) (some left) (some right) :: rest2)

/-- `build_huffman_tree(freq_table)`: `None` on an empty table
(`if not freq_table: return None`); a synthetic internal root with the
lone leaf as its only (left) child when the table has exactly one entry;
otherwise the min-heap merge loop. -/
def build_huffman_tree (freq_table : List (Char × Nat)) : Option HuffmanNode :=
  if freq_table = [] then none
  else
    let heap := freq_table.map fun p => HuffmanNode.mk (some p.1) p.2 none none
    match heap with
    | [node] => some (HuffmanNode.mk none node.freq (some node) none)
    | _ => buildLoop heap.length heap

/-- The recursive `traverse` of `build_code_table`: record
`code if code else "0"` at a leaf, otherwise recurse left with
`code + "0"` and right with `code + "1"`; `None` children contribute
nothing.  The resulting entry list (in traversal order) models the
`codes` dict, whose keys are the distinct leaf characters. -/
def traverse : Option HuffmanNode → List Bool → List (Char × List Bool)
  | none, _ => []
  | some (.mk (some c) _ _ _), code => [(c, if code = [] then [false] else code)]
  | some (.mk none _ l r), code =>
    traverse l (code ++ [false]) ++ traverse r (code ++ [true])

/-- `build_code_table(root)`: `traverse(root, "")`. -/
def build_code_table (root : Option HuffmanNode) : List (Char × List Bool) :=
  traverse root []

/-- `encode_text(text, code_table)`: the concatenation of
`code_table[char]` over the text; a character missing from the table
raises `KeyError`, embedded as `none`. -/
def encode_text (text : List Char) (code_table : List (Char × List Bool)) : Option (List Bool) :=
  match text with
  | [] => some []
  | c :: rest =>
    match code_table.lookup c with
    | none => none
    | some p => (encode_text rest code_table).map (fun bs => p ++ bs)

/-- The `for bit in encoded` loop of `decode_text`: step to
`node.left` on '0' and `node.right` otherwise; when the child is `None`
the subsequent `node.is_leaf()` dereferences `None` and raises
`AttributeError`, embedded as `none`; at a leaf, append its character
and reset to the root; when the bits run out, return the accumulated
characters whatever the current node is. -/
def decodeGo (root : HuffmanNode) : List Bool → HuffmanNode → List Char → Option (List Char)
  | [], _, acc => some acc
  | b :: rest, node, acc =>
    match (if b then node.right else node.left) with
    | none => none
    | some child =>
      match child.char with
      | some c => decodeGo root rest root (acc ++ [c])
      | none => decodeGo root rest child acc

/-- `decode_text(encoded, root)`: empty output when `root is None`,
otherwise the bit-by-bit tree walk of `decodeGo`. -/
def decode_text (encoded : List Bool) (root : Option HuffmanNode) : Option (List Char) :=
  match root with
  | none => some []
  | some r => decodeGo r encoded r []

/-- `int(s, 2)` on a string of '0'/'1' characters. -/
def bitsToNat (bs : List Bool) : Nat :=
  bs.foldl (fun acc b => 2 * acc + (if b then 1 else 0)) 0

/-- Binary digits of a natural number, most significant bit first, with
no leading zeros (and no digits at all for 0).  The first argument is
fuel making the halving recursion structural; any fuel of at least `n`
iterations computes all digits of `n`. -/
def natToBitsGo : Nat → Nat → List Bool
  | 0, _ => []
  | fuel + 1, n => if n = 0 then [] else natToBitsGo fuel (n / 2) ++ [(n % 2 == 1)]

/-- Minimal binary representation of a natural number, most significant
bit first (`format(n, 'b')`); `[false]` for 0. -/
def natToBits (n : Nat) : List Bool :=
  if n = 0 then [false] else natToBitsGo n n

/-- `format(byte, '08b')`: the binary representation left-padded with
zero bits to at least 8 digits. -/
def format08b (byte : Nat) : List Bool :=
  List.replicate (8 - (natToBits byte).length) false ++ natToBits byte

/-- The `for i in range(0, len(bit_string), 8)` loop of `pack_bits`:
convert each 8-bit group to a byte value. -/
def packBytes (bs : List Bool) : List Nat :=
  if bs = [] then [] else bitsToNat (bs.take 8) :: packBytes (bs.drop 8)
termination_by bs.length
decreasing_by
  cases bs with
  | nil => simp_all
  | cons a l => simp only [List.length_drop, List.length_cons]; omega

/-- `pack_bits(bit_string)`: append `(8 - len % 8) % 8` zero filler bits,
group into bytes, and return the bytes with the padding count. -/
def pack_bits (bit_string : List Bool) : List Nat × Nat :=
  let padding := (8 - bit_string.length % 8) % 8
  (packBytes (bit_string ++ List.replicate padding false), padding)

/-- `unpack_bits(data, padding)`: expand each byte with `format(b,'08b')`,
concatenate, and when `padding > 0` drop the last `padding` bits
(`bits[:-padding]`). -/
def unpack_bits (data : List Nat) (padding : Nat) : List Bool :=
  let bits := (data.map format08b).flatten
  if padding > 0 then bits.take (bits.length - padding) else bits

/-- Outcome of one `compress` invocation.  `fileNotFound` and
`emptyInput` are the two early `print`-and-`return` paths, on which the
output path is never opened, created, or overwritten; `crashed` is an
uncaught exception; `wroteArchive tree padding packed` records the data
written to the output file: `pickle.dump((tree_root, padding))` followed
by the packed bytes. -/
inductive CompResult where
  | fileNotFound
  | emptyInput
  | crashed
  | wroteArchive (tree : Option HuffmanNode) (padding : Nat) (packed : List Nat)

/-- `compress(input_path, output_path)` with the file system abstracted:
`fileExists` tells whether the input path exists and `text` is the file
content read from it. -/
def compress (fileExists : Bool) (text : List Char) : CompResult :=
  if !fileExists then .fileNotFound
  else if text = [] then .emptyInput
  else
    let freq_table := build_frequency_table text
    let tree_root := build_huffman_tree freq_table
    let code_table := build_code_table tree_root
    match encode_text text code_table with
    | none => .crashed
    | some encoded => .wroteArchive tree_root (pack_bits encoded).2 (pack_bits encoded).1

/-- Outcome of one `decompress` invocation.  `crashed` is an uncaught
exception (a failing `pickle.load`, or `decode_text` dereferencing a
missing child); `wrote text` means `text` was written to the output path
and success reported.  The function body contains no other path: the
source has no error handling between reading the input and writing the
output. -/
inductive DecResult where
  | fileNotFound
  | crashed
  | wrote (text : List Char)
deriving DecidableEq

/-- `decompress(input_path, output_path)` with the file system and
`pickle` abstracted: `fileExists` tells whether the input path exists,
and `parsed` is the outcome of `pickle.load` on the file contents
together with the remaining payload bytes — `none` when `pickle.load`
raises (the file does not parse), `some (tree, padding, packed)` when it
yields the pair `(tree, padding)` followed by payload `packed`. -/
def decompress (fileExists : Bool)
    (parsed : Option (Option HuffmanNode × Nat × List Nat)) : DecResult :=
  if !fileExists then .fileNotFound
  else
    match parsed with
    | none => .crashed
    | some (tree_root, padding, packed) =>
      match decode_text (unpack_bits packed padding) tree_root with
      | none => .crashed
      | some decoded => .wrote decoded

/-- `calculate_entropy(freq_table, total)`: `-Σ p * log2(p)` with
`p = freq / total`, over the real numbers. -/
noncomputable def calculate_entropy (freq_table : List (Char × Nat)) (total : Nat) : ℝ :=
  -(freq_table.map fun p => (p.2 : ℝ) / total * Real.logb 2 ((p.2 : ℝ) / total)).sum

/-! ### Proof-support definitions (not present in the source; used to
state invariants about the definitions above) -/

/-- Characters at the leaves of an optional (sub)tree, left to right.
A node whose `char` is set counts as a leaf (`is_leaf`), exactly as the
traversals of the source treat it. -/
def nodeChars : Option HuffmanNode → List Char
  | none => []
  | some (.mk (some c) _ _ _) => [c]
  | some (.mk none _ l r) => nodeChars l ++ nodeChars r

/-- Trees all of whose internal nodes have both children present — the
shape of every node handled by the merge loop of `build_huffman_tree`
(leaves enter with no children; merged nodes get both). -/
inductive Full : HuffmanNode → Prop where
  | leaf (c : Char) (f : Nat) : Full (.mk (some c) f none none)
  | node (f : Nat) (l r : HuffmanNode) : Full l → Full r → Full (.mk none f (some l) (some r))

/-- The decoder, standing at node `t`, consumes exactly the bits `s` and
then emits `c`: the walk threads through internal nodes (never touching
a leaf or a missing child on the way) and ends at a leaf holding `c`. -/
def followsAt : List Bool → HuffmanNode → Char → Prop
  | [], t, c => t.char = some c
  | b :: rest, t, c =>
    t.char = none ∧ ∃ m, (if b then t.right else t.left) = some m ∧ followsAt rest m c

/-- The bit string `p` is a root-to-leaf path in the tree rooted at
`root` ending at a leaf holding `c`. -/
def rootPath (root : HuffmanNode) (p : List Bool) (c : Char) : Prop :=
  ∃ b s m, p = b :: s ∧ (if b then root.right else root.left) = some m ∧ followsAt s m c

/-- Two code-table entries are separated: neither one's code is a
prefix of the other's (in particular not a proper one). -/
def Sep (e₁ e₂ : Char × List Bool) : Prop :=
  (¬∃ r, e₁.2 ++ r = e₂.2) ∧ (¬∃ r, e₂.2 ++ r = e₁.2)

/-- The walk of `decode_text` along these bits starting at node `n`
stays strictly inside the tree: every step finds a child, and that
child is internal (so no character is ever emitted and no missing child
is ever dereferenced). -/
def danglingWalk : List Bool → HuffmanNode → Bool
  | [], _ => true
  | b :: rest, n =>
    match (if b then n.right else n.left) with
    | none => false
    | some m =>
      match m.char with
      | some _ => false
      | none => danglingWalk rest m

/-- Sum of the `freq` fields over the internal nodes of an optional
tree.  For the trees built by the merge loop — whose internal `freq` is
the sum of the leaf frequencies below — this equals the weighted
external path length Σ leaf-frequency × leaf-depth. -/
def hcost : Option HuffmanNode → Nat
  | none => 0
  | some (.mk (some _) _ _ _) => 0
  | some (.mk none f l r) => f + hcost l + hcost r

/-- The (character, frequency) pairs at the leaves, left to right. -/
def nodePairs : Option HuffmanNode → List (Char × Nat)
  | none => []
  | some (.mk (some c) f _ _) => [(c, f)]
  | some (.mk none _ l r) => nodePairs l ++ nodePairs r

/-- The (character, frequency, depth) triples of the leaves of a tree
hanging at depth `d`. -/
def leafData : Option HuffmanNode → Nat → List (Char × Nat × Nat)
  | none, _ => []
  | some (.mk (some c) f _ _), d => [(c, f, d)]
  | some (.mk none _ l r), d => leafData l (d + 1) ++ leafData r (d + 1)

/-- Trees as built by the merge loop: full, and every internal node's
`freq` is the sum of its children's frequencies. -/
inductive Good : HuffmanNode → Prop where
  | leaf (c : Char) (f : Nat) : Good (.mk (some c) f none none)
  | node (l r : HuffmanNode) : Good l → Good r →
      Good (.mk none (l.freq + r.freq) (some l) (some r))

/-- Weighted cost Σ weight × length of a weight/length profile. -/
def profCost (prof : List (Nat × Nat)) : Nat :=
  (prof.map fun x => x.1 * x.2).sum

/-- Kraft sum of the lengths of a profile, scaled by `2 ^ m`:
Σ 2 ^ (m - length).  When every length is at most `m`, the real Kraft
sum Σ (1/2)^length is at most 1 iff this is at most `2 ^ m`. -/
def kraftS (m : Nat) (prof : List (Nat × Nat)) : Nat :=
  (prof.map fun x => 2 ^ (m - x.2)).sum

/-- Total symbol count of a frequency table (the length of the text it
was built from). -/
def totalFreq (ft : List (Char × Nat)) : Nat :=
  (ft.map Prod.snd).sum

/-- Length of the code assigned to a symbol by the code table that the
pipeline derives from the built tree. -/
def lenOf (ft : List (Char × Nat)) (c : Char) : Nat :=
  (((build_code_table (build_huffman_tree ft)).lookup c).getD []).length

/-- Frequency-weighted mean code length over the code table derived
from the built tree. -/
noncomputable def avg_code_length (ft : List (Char × Nat)) : ℝ :=
  (ft.map fun p => (p.2 : ℝ) * (lenOf ft p.1 : ℝ)).sum / (totalFreq ft : ℝ)

/-- Shannon–Fano code length for a symbol of frequency `f` out of `S`:
the least `l` with `S ≤ f * 2 ^ l`, computed as ⌈log2⌈S/f⌉⌉. -/
def sfLen (S f : Nat) : Nat :=
  Nat.clog 2 ((S + f - 1) / f)

/-! ### Lemmas about bit packing -/

theorem foldl_bits_lt (bs : List Bool) : ∀ acc : Nat,
    bs.foldl (fun acc b => 2 * acc + (if b then 1 else 0)) acc < (acc + 1) * 2 ^ bs.length := by
  induction bs with
  | nil => intro acc; simp
  | cons b bs ih =>
    intro acc
    have h := ih (2 * acc + (if b then 1 else 0))
    have h2 : (2 * acc + (if b then 1 else 0) + 1) * 2 ^ bs.length ≤ (acc + 1) * 2 ^ (bs.length + 1) := by
      have hb : 2 * acc + (if b then 1 else 0) + 1 ≤ 2 * (acc + 1) := by cases b <;> simp <;> omega
      calc (2 * acc + (if b then 1 else 0) + 1) * 2 ^ bs.length
          ≤ 2 * (acc + 1) * 2 ^ bs.length := Nat.mul_le_mul_right _ hb
        _ = (acc + 1) * 2 ^ (bs.length + 1) := by ring
    simp only [List.foldl_cons, List.length_cons]
    exact lt_of_lt_of_le h h2

theorem bitsToNat_lt (bs : List Bool) : bitsToNat bs < 2 ^ bs.length := by
  simpa [bitsToNat] using foldl_bits_lt bs 0

theorem packBytes_lt (bs : List Bool) : ∀ x ∈ packBytes bs, x < 256 := by
  induction bs using packBytes.induct with
  | case1 => simp [packBytes]
  | case2 x hx ih =>
    rw [packBytes, if_neg hx]
    intro y hy
    rcases List.mem_cons.mp hy with h | h
    · subst h
      have h1 := bitsToNat_lt (x.take 8)
      have h2 : 2 ^ (x.take 8).length ≤ 2 ^ 8 := by
        apply Nat.pow_le_pow_right (by norm_num)
        simp [List.length_take]
      exact lt_of_lt_of_le h1 h2
    · exact ih y h

theorem fmt_bits : ∀ bs : List Bool, bs.length = 8 → format08b (bitsToNat bs) = bs
  | [b0, b1, b2, b3, b4, b5, b6, b7], _ => by revert b0 b1 b2 b3 b4 b5 b6 b7; decide

theorem flat_pack : ∀ bs : List Bool, bs.length % 8 = 0 →
    ((packBytes bs).map format08b).flatten = bs := by
  intro bs
  induction bs using packBytes.induct with
  | case1 => intro _; simp [packBytes]
  | case2 x hx ih =>
    intro h
    rw [packBytes, if_neg hx]
    simp only [List.map_cons, List.flatten_cons]
    have hne : x.length ≠ 0 := fun h0 => hx (List.length_eq_zero.mp h0)
    have hlen : 8 ≤ x.length := by omega
    have htake : (x.take 8).length = 8 := by simp [List.length_take]; omega
    rw [fmt_bits _ htake, ih (by simp [List.length_drop]; omega)]
    exact List.take_append_drop 8 x

theorem pack_padding_le (bs : List Bool) : (pack_bits bs).2 ≤ 7 := by
  simp only [pack_bits]
  omega

theorem pack_length_mod (bs : List Bool) : (bs.length + (pack_bits bs).2) % 8 = 0 := by
  simp only [pack_bits]
  omega

theorem pack_flatten (bs : List Bool) :
    ((pack_bits bs).1.map format08b).flatten = bs ++ List.replicate (pack_bits bs).2 false := by
  simp only [pack_bits]
  exact flat_pack _ (by simp [List.length_append, List.length_replicate]; omega)

theorem unpack_pack (bs : List Bool) :
    unpack_bits (pack_bits bs).1 (pack_bits bs).2 = bs := by
  have hflat := pack_flatten bs
  simp only [pack_bits] at hflat ⊢
  unfold unpack_bits
  rw [hflat]
  by_cases h : (8 - bs.length % 8) % 8 > 0
  · rw [if_pos h, List.length_append, List.length_replicate]
    have heq : bs.length + (8 - bs.length % 8) % 8 - (8 - bs.length % 8) % 8 = bs.length := by omega
    rw [heq]
    exact List.take_left bs _
  · rw [if_neg h]
    have h0 : (8 - bs.length % 8) % 8 = 0 := by omega
    simp [h0]

/-! ### Lemmas about the heap model and the merge loop -/

theorem popMin_eq_none {l : List HuffmanNode} : popMin l = none ↔ l = [] := by
  cases l with
  | nil => simp [popMin]
  | cons x xs =>
    simp only [popMin]
    cases h : popMin xs with
    | none => simp
    | some p => obtain ⟨y, ys⟩ := p; by_cases hf : y.freq < x.freq <;> simp [hf]

theorem popMin_perm : ∀ {l : List HuffmanNode} {x r}, popMin l = some (x, r) → l.Perm (x :: r) := by
  intro l
  induction l with
  | nil => intro x r h; simp [popMin] at h
  | cons a xs ih =>
    intro x r h
    simp only [popMin] at h
    cases hx : popMin xs with
    | none =>
      rw [hx] at h
      dsimp only at h
      simp only [Option.some.injEq, Prod.mk.injEq] at h
      obtain ⟨rfl, rfl⟩ := h
      have : xs = [] := popMin_eq_none.mp hx
      subst this
      exact List.Perm.refl _
    | some p =>
      obtain ⟨y, ys⟩ := p
      rw [hx] at h
      dsimp only at h
      by_cases hf : y.freq < a.freq
      · rw [if_pos hf] at h
        simp only [Option.some.injEq, Prod.mk.injEq] at h
        obtain ⟨rfl, rfl⟩ := h
        exact ((ih hx).cons a).trans (List.Perm.swap _ _ _)
      · rw [if_neg hf] at h
        simp only [Option.some.injEq, Prod.mk.injEq] at h
        obtain ⟨rfl, rfl⟩ := h
        exact List.Perm.refl _

theorem popMin_length {l : List HuffmanNode} {x r} (h : popMin l = some (x, r)) :
    l.length = r.length + 1 := by
  simpa using (popMin_perm h).length_eq

theorem popMin_mem {l : List HuffmanNode} {x r} (h : popMin l = some (x, r)) : x ∈ l :=
  (popMin_perm h).mem_iff.mpr (List.mem_cons_self x r)

theorem popMin_subset {l : List HuffmanNode} {x r} (h : popMin l = some (x, r)) :
    ∀ y ∈ r, y ∈ l := fun y hy => (popMin_perm h).mem_iff.mpr (List.mem_cons_of_mem x hy)

theorem buildLoop_some_spec :
    ∀ (fuel : Nat) (l : List HuffmanNode), l ≠ [] → l.length ≤ fuel + 1 →
      (∀ x ∈ l, Full x) →
      ∃ t, buildLoop fuel l = some t ∧ Full t ∧
        (nodeChars (some t)).Perm ((l.map fun x => nodeChars (some x)).flatten) := by
  intro fuel
  induction fuel with
  | zero =>
    intro l hne hlen hfull
    match l, hne, hlen with
    | [t], _, _ =>
      exact ⟨t, rfl, hfull t (List.mem_singleton_self t), by simp⟩
    | t₁ :: t₂ :: rest, _, hlen => simp at hlen
  | succ fuel ih =>
    intro l hne hlen hfull
    match l with
    | [t] => exact ⟨t, rfl, hfull t (List.mem_singleton_self t), by simp⟩
    | a :: b :: ys =>
      obtain ⟨x, r, hx⟩ : ∃ x r, popMin (a :: b :: ys) = some (x, r) := by
        cases h : popMin (a :: b :: ys) with
        | none => exact absurd (popMin_eq_none.mp h) (by simp)
        | some p => obtain ⟨xx, rr⟩ := p; exact ⟨xx, rr, rfl⟩
      have hrlen : r.length = ys.length + 1 := by
        have := popMin_length hx; simpa using this.symm
      obtain ⟨y, r2, hy⟩ : ∃ y r2, popMin r = some (y, r2) := by
        cases h : popMin r with
        | none =>
          exfalso
          have : r = [] := popMin_eq_none.mp h
          rw [this] at hrlen; simp at hrlen
        | some p => obtain ⟨xx, rr⟩ := p; exact ⟨xx, rr, rfl⟩
      have hr2len : r2.length = ys.length := by
        have := popMin_length hy; omega
      have hunfold : buildLoop (fuel + 1) (a :: b :: ys) =
          buildLoop fuel (HuffmanNode.mk none (x.freq + y.freq) (some x) (some y) :: r2) := by
        rw [buildLoop.eq_def]
        simp only [hx, hy]
      have hfull2 : ∀ z ∈ HuffmanNode.mk none (x.freq + y.freq) (some x) (some y) :: r2, Full z := by
        intro z hz
        rcases List.mem_cons.mp hz with rfl | hz
        · exact Full.node _ x y (hfull x (popMin_mem hx))
            (hfull y (popMin_subset hx y (popMin_mem hy)))
        · exact hfull z (popMin_subset hx z (popMin_subset hy z hz))
      obtain ⟨t, ht, htf, htc⟩ := ih (HuffmanNode.mk none (x.freq + y.freq) (some x) (some y) :: r2)
        (by simp) (by simp only [List.length_cons] at hlen ⊢; omega) hfull2
      refine ⟨t, by rw [hunfold]; exact ht, htf, ?_⟩
      have heq : ((HuffmanNode.mk none (x.freq + y.freq) (some x) (some y) :: r2).map
            fun z => nodeChars (some z)).flatten
          = ((x :: y :: r2).map fun z => nodeChars (some z)).flatten := by
        simp [nodeChars]
      rw [heq] at htc
      have hp : (a :: b :: ys).Perm (x :: y :: r2) :=
        (popMin_perm hx).trans ((popMin_perm hy).cons x)
      exact htc.trans ((hp.map fun z => nodeChars (some z)).flatten).symm

theorem buildLoop_shape :
    ∀ (fuel : Nat) (l : List HuffmanNode) (t : HuffmanNode), 2 ≤ l.length →
      buildLoop fuel l = some t →
      t.char = none ∧ (∃ a, t.left = some a) ∧ ∃ b, t.right = some b := by
  intro fuel
  induction fuel with
  | zero =>
    intro l t h2 ht
    match l, h2, ht with
    | a :: b :: ys, _, ht => exact absurd ht (by simp [buildLoop])
  | succ fuel ih =>
    intro l t h2 ht
    match l, h2, ht with
    | a :: b :: ys, _, ht =>
      obtain ⟨x, r, hx⟩ : ∃ x r, popMin (a :: b :: ys) = some (x, r) := by
        cases h : popMin (a :: b :: ys) with
        | none => exact absurd (popMin_eq_none.mp h) (by simp)
        | some p => obtain ⟨xx, rr⟩ := p; exact ⟨xx, rr, rfl⟩
      have hrlen : r.length = ys.length + 1 := by
        have := popMin_length hx; simpa using this.symm
      obtain ⟨y, r2, hy⟩ : ∃ y r2, popMin r = some (y, r2) := by
        cases h : popMin r with
        | none =>
          exfalso
          have : r = [] := popMin_eq_none.mp h
          rw [this] at hrlen; simp at hrlen
        | some p => obtain ⟨xx, rr⟩ := p; exact ⟨xx, rr, rfl⟩
      have hunfold : buildLoop (fuel + 1) (a :: b :: ys) =
          buildLoop fuel (HuffmanNode.mk none (x.freq + y.freq) (some x) (some y) :: r2) := by
        rw [buildLoop.eq_def]
        simp only [hx, hy]
      rw [hunfold] at ht
      match r2, ht with
      | [], ht =>
        have : HuffmanNode.mk none (x.freq + y.freq) (some x) (some y) = t := by
          simpa [buildLoop] using ht
        subst this
        exact ⟨rfl, ⟨x, rfl⟩, ⟨y, rfl⟩⟩
      | u :: us, ht => exact ih _ t (by simp) ht

/-! ### Lemmas about the built tree and the code table -/

theorem flatten_leaf_chars (ft : List (Char × Nat)) :
    ((ft.map fun p => HuffmanNode.mk (some p.1) p.2 none none).map
      fun x => nodeChars (some x)).flatten = ft.map Prod.fst := by
  induction ft with
  | nil => simp
  | cons p rest ih => simpa [nodeChars] using ih

theorem build_tree_cases (ft : List (Char × Nat)) (hne : ft ≠ []) :
    (∃ c f, ft = [(c, f)] ∧
      build_huffman_tree ft =
        some (.mk none f (some (.mk (some c) f none none)) none)) ∨
    (∃ t, build_huffman_tree ft = some t ∧ Full t ∧ t.char = none ∧
      (∃ a, t.left = some a) ∧ (∃ b, t.right = some b) ∧
      (nodeChars (some t)).Perm (ft.map Prod.fst)) := by
  match ft with
  | [(c, f)] => exact Or.inl ⟨c, f, rfl, rfl⟩
  | p :: q :: rest =>
    right
    have hfull : ∀ x ∈ (p :: q :: rest).map
        (fun p => HuffmanNode.mk (some p.1) p.2 none none), Full x := by
      intro x hx
      obtain ⟨pp, _, rfl⟩ := List.mem_map.mp hx
      exact Full.leaf _ _
    obtain ⟨t, ht, htf, htc⟩ := buildLoop_some_spec
      ((p :: q :: rest).map (fun p => HuffmanNode.mk (some p.1) p.2 none none)).length
      ((p :: q :: rest).map fun p => HuffmanNode.mk (some p.1) p.2 none none)
      (by simp) (by omega) hfull
    have hshape := buildLoop_shape _ _ t (by simp) ht
    have hbuild : build_huffman_tree (p :: q :: rest) =
        buildLoop ((p :: q :: rest).map (fun p => HuffmanNode.mk (some p.1) p.2 none none)).length
          ((p :: q :: rest).map fun p => HuffmanNode.mk (some p.1) p.2 none none) := rfl
    rw [flatten_leaf_chars] at htc
    exact ⟨t, by rw [hbuild]; exact ht, htf, hshape.1, hshape.2.1, hshape.2.2, htc⟩

theorem trav_fst : ∀ (o : Option HuffmanNode) (pre : List Bool),
    (traverse o pre).map Prod.fst = nodeChars o := by
  intro o pre
  induction o, pre using traverse.induct with
  | case1 _ => simp [traverse, nodeChars]
  | case2 c f left right code => simp [traverse, nodeChars]
  | case3 f left right code ihl ihr => simp [traverse, nodeChars, ihl, ihr]

theorem trav_extends : ∀ (o : Option HuffmanNode) (pre : List Bool) (c : Char) (p : List Bool),
    (c, p) ∈ traverse o pre → ∃ s, p = pre ++ s := by
  intro o pre
  induction o, pre using traverse.induct with
  | case1 _ => intro c p h; simp [traverse] at h
  | case2 c0 f left right code =>
    intro c p h
    simp only [traverse, List.mem_singleton, Prod.mk.injEq] at h
    by_cases hc : code = []
    · exact ⟨[false], by simp [h.2, hc]⟩
    · exact ⟨[], by simp [h.2, hc]⟩
  | case3 f left right code ihl ihr =>
    intro c p h
    simp only [traverse] at h
    rcases List.mem_append.mp h with h' | h'
    · obtain ⟨s, hs⟩ := ihl c p h'
      exact ⟨false :: s, by simp [hs]⟩
    · obtain ⟨s, hs⟩ := ihr c p h'
      exact ⟨true :: s, by simp [hs]⟩

theorem sep_branches {pre s₁ s₂ : List Bool} {p₁ p₂ : List Bool} {b₁ b₂ : Bool}
    (hbb : b₁ ≠ b₂)
    (h₁ : p₁ = (pre ++ [b₁]) ++ s₁) (h₂ : p₂ = (pre ++ [b₂]) ++ s₂) :
    ¬∃ r, p₁ ++ r = p₂ := by
  rintro ⟨rext, hr⟩
  rw [h₁, h₂] at hr
  have h : pre ++ (b₁ :: (s₁ ++ rext)) = pre ++ (b₂ :: s₂) := by
    simpa [List.append_assoc] using hr
  have h' := List.append_cancel_left h
  exact hbb (List.cons.injEq .. ▸ congrArg id h' |> fun hh => (List.cons.inj h').1)

theorem trav_pairwise : ∀ (t : HuffmanNode), Full t → ∀ pre : List Bool,
    (traverse (some t) pre).Pairwise Sep := by
  intro t hf
  induction hf with
  | leaf c f => intro pre; simp [traverse]
  | node f l r hl hr ihl ihr =>
    intro pre
    have heq : traverse (some (.mk none f (some l) (some r))) pre
        = traverse (some l) (pre ++ [false]) ++ traverse (some r) (pre ++ [true]) := by
      simp [traverse]
    rw [heq, List.pairwise_append]
    refine ⟨ihl _, ihr _, ?_⟩
    intro e₁ h₁ e₂ h₂
    obtain ⟨s₁, hs₁⟩ := trav_extends _ _ e₁.1 e₁.2 h₁
    obtain ⟨s₂, hs₂⟩ := trav_extends _ _ e₂.1 e₂.2 h₂
    exact ⟨sep_branches (by simp) hs₁ hs₂, sep_branches (by simp) hs₂ hs₁⟩

theorem trav_followsAt : ∀ (t : HuffmanNode), Full t → ∀ pre : List Bool, pre ≠ [] →
    ∀ c p, (c, p) ∈ traverse (some t) pre → ∃ s, p = pre ++ s ∧ followsAt s t c := by
  intro t hf
  induction hf with
  | leaf c0 f =>
    intro pre hpre c p h
    simp only [traverse, if_neg hpre, List.mem_singleton, Prod.mk.injEq] at h
    obtain ⟨rfl, rfl⟩ := h
    exact ⟨[], by simp, rfl⟩
  | node f l r hfl hfr ihl ihr =>
    intro pre hpre c p h
    have heq : traverse (some (.mk none f (some l) (some r))) pre
        = traverse (some l) (pre ++ [false]) ++ traverse (some r) (pre ++ [true]) := by
      simp [traverse]
    rw [heq] at h
    rcases List.mem_append.mp h with h' | h'
    · obtain ⟨s, hs, hfa⟩ := ihl (pre ++ [false]) (by simp) c p h'
      exact ⟨false :: s, by simp [hs], ⟨rfl, l, rfl, hfa⟩⟩
    · obtain ⟨s, hs, hfa⟩ := ihr (pre ++ [true]) (by simp) c p h'
      exact ⟨true :: s, by simp [hs], ⟨rfl, r, rfl, hfa⟩⟩

theorem built_code_spec (ft : List (Char × Nat)) (hne : ft ≠ []) :
    ∃ root, build_huffman_tree ft = some root ∧
      ((build_code_table (some root)).map Prod.fst).Perm (ft.map Prod.fst) ∧
      (∀ c p, (c, p) ∈ build_code_table (some root) → rootPath root p c) ∧
      (build_code_table (some root)).Pairwise Sep := by
  rcases build_tree_cases ft hne with ⟨c, f, rfl, hb⟩ |
    ⟨t, hb, htf, hchar, ⟨a, ha⟩, ⟨b, hbr⟩, hperm⟩
  · refine ⟨_, hb, ?_, ?_, ?_⟩
    · have hct : build_code_table
          (some (.mk none f (some (.mk (some c) f none none)) none)) = [(c, [false])] := by
        simp [build_code_table, traverse]
      rw [hct]; simp
    · intro c' p' h'
      have hct : build_code_table
          (some (.mk none f (some (.mk (some c) f none none)) none)) = [(c, [false])] := by
        simp [build_code_table, traverse]
      rw [hct] at h'
      simp only [List.mem_singleton, Prod.mk.injEq] at h'
      obtain ⟨rfl, rfl⟩ := h'
      exact ⟨false, [], .mk (some c') f none none, rfl, rfl, rfl⟩
    · have hct : build_code_table
          (some (.mk none f (some (.mk (some c) f none none)) none)) = [(c, [false])] := by
        simp [build_code_table, traverse]
      rw [hct]; simp
  · cases htf with
    | leaf c0 f0 => simp [HuffmanNode.char] at hchar
    | node f0 l r hfl hfr =>
      refine ⟨_, hb, ?_, ?_, ?_⟩
      · rw [show (build_code_table (some (.mk none f0 (some l) (some r)))).map Prod.fst
            = nodeChars (some (.mk none f0 (some l) (some r))) from trav_fst _ _]
        exact hperm
      · intro c p h
        have heq : build_code_table (some (.mk none f0 (some l) (some r)))
            = traverse (some l) [false] ++ traverse (some r) [true] := by
          simp [build_code_table, traverse]
        rw [heq] at h
        rcases List.mem_append.mp h with h' | h'
        · obtain ⟨s, hs, hfa⟩ := trav_followsAt l hfl [false] (by simp) c p h'
          exact ⟨false, s, l, by simpa using hs, rfl, hfa⟩
        · obtain ⟨s, hs, hfa⟩ := trav_followsAt r hfr [true] (by simp) c p h'
          exact ⟨true, s, r, by simpa using hs, rfl, hfa⟩
      · exact trav_pairwise _ (Full.node f0 l r hfl hfr) []

/-! ### Lemmas about the frequency table -/

theorem addCount_keys (acc : List (Char × Nat)) (c : Char) :
    (addCount acc c).map Prod.fst =
      if c ∈ acc.map Prod.fst then acc.map Prod.fst else acc.map Prod.fst ++ [c] := by
  induction acc with
  | nil => simp [addCount]
  | cons p rest ih =>
    obtain ⟨a, n⟩ := p
    by_cases hac : a = c
    · subst hac; simp [addCount]
    · simp only [addCount, if_neg hac, List.map_cons, ih, List.mem_cons]
      by_cases hmem : c ∈ rest.map Prod.fst
      · simp [hmem, Ne.symm hac]
      · simp [hmem, Ne.symm hac]

theorem foldl_keys_nodup : ∀ (text : List Char) (acc : List (Char × Nat)),
    (acc.map Prod.fst).Nodup → ((text.foldl addCount acc).map Prod.fst).Nodup := by
  intro text
  induction text with
  | nil => intro acc h; exact h
  | cons c rest ih =>
    intro acc h
    rw [List.foldl_cons]
    apply ih
    rw [addCount_keys]
    by_cases hmem : c ∈ acc.map Prod.fst
    · simpa [hmem] using h
    · rw [if_neg hmem]
      rw [List.nodup_append]
      exact ⟨h, List.nodup_singleton c, by
        intro x hx hx'
        rw [List.mem_singleton] at hx'
        subst hx'
        exact hmem hx⟩

theorem foldl_keys_mem : ∀ (text : List Char) (acc : List (Char × Nat)) (c : Char),
    (c ∈ acc.map Prod.fst ∨ c ∈ text) → c ∈ (text.foldl addCount acc).map Prod.fst := by
  intro text
  induction text with
  | nil =>
    intro acc c h
    rcases h with h | h
    · exact h
    · simp at h
  | cons d rest ih =>
    intro acc c h
    rw [List.foldl_cons]
    apply ih
    rcases h with h | h
    · left
      rw [addCount_keys]
      by_cases hm : d ∈ acc.map Prod.fst
      · simpa [hm] using h
      · simp [hm, h]
    · rcases List.mem_cons.mp h with rfl | h'
      · left
        rw [addCount_keys]
        by_cases hm : c ∈ acc.map Prod.fst
        · simpa [hm] using hm
        · simp [hm]
      · right
        exact h'

theorem bft_keys_nodup (text : List Char) :
    ((build_frequency_table text).map Prod.fst).Nodup :=
  foldl_keys_nodup text [] (by simp)

theorem bft_mem (text : List Char) (c : Char) (h : c ∈ text) :
    c ∈ (build_frequency_table text).map Prod.fst :=
  foldl_keys_mem text [] c (Or.inr h)

theorem bft_ne_nil (text : List Char) (h : text ≠ []) : build_frequency_table text ≠ [] := by
  match text, h with
  | c :: rest, _ =>
    have hm := bft_mem (c :: rest) c (List.mem_cons_self c rest)
    intro h0
    rw [h0] at hm
    simp at hm

/-! ### Lemmas about association-list lookup -/

theorem lookup_mem : ∀ (l : List (Char × List Bool)) (c : Char) (p : List Bool),
    l.lookup c = some p → (c, p) ∈ l := by
  intro l
  induction l with
  | nil => intro c p h; simp [List.lookup] at h
  | cons e rest ih =>
    intro c p h
    obtain ⟨a, q⟩ := e
    by_cases hca : c = a
    · subst hca
      simp [List.lookup] at h
      subst h
      exact List.mem_cons_self _ _
    · have hne : (c == a) = false := by simp [hca]
      simp [List.lookup, hne] at h
      exact List.mem_cons_of_mem _ (ih c p h)

theorem mem_lookup_some : ∀ (l : List (Char × List Bool)) (c : Char),
    c ∈ l.map Prod.fst → ∃ p, l.lookup c = some p := by
  intro l
  induction l with
  | nil => intro c h; simp at h
  | cons e rest ih =>
    intro c h
    obtain ⟨a, q⟩ := e
    by_cases hca : c = a
    · subst hca
      exact ⟨q, by simp [List.lookup]⟩
    · have hne : (c == a) = false := by simp [hca]
      have h' : c ∈ rest.map Prod.fst := by
        simp only [List.map_cons, List.mem_cons] at h
        rcases h with h0 | h0
        · exact absurd h0 hca
        · exact h0
      obtain ⟨p, hp⟩ := ih c h'
      exact ⟨p, by simp [List.lookup, hne, hp]⟩

/-! ### Lemmas about decoding -/

theorem decodeGo_followsAt : ∀ (s : List Bool) (m : HuffmanNode) (c : Char), followsAt s m c →
    ∀ (root n : HuffmanNode) (b : Bool) (rest : List Bool) (acc : List Char),
      (if b then n.right else n.left) = some m →
      decodeGo root (b :: (s ++ rest)) n acc = decodeGo root rest root (acc ++ [c]) := by
  intro s
  induction s with
  | nil =>
    intro m c hf root n b rest acc hchild
    simp only [followsAt] at hf
    simp [decodeGo, hchild, hf]
  | cons b' s ih =>
    intro m c hf root n b rest acc hchild
    simp only [followsAt] at hf
    obtain ⟨hm, m₂, hchild₂, hf₂⟩ := hf
    have h1 : decodeGo root (b :: (b' :: (s ++ rest))) n acc
        = decodeGo root (b' :: (s ++ rest)) m acc := by
      simp [decodeGo, hchild, hm]
    rw [show (b' :: s) ++ rest = b' :: (s ++ rest) from rfl, h1]
    exact ih m₂ c hf₂ root m b' rest acc hchild₂

theorem decodeGo_encode : ∀ (text : List Char) (root : HuffmanNode) (ct : List (Char × List Bool)),
    (∀ c ∈ text, ∃ p, ct.lookup c = some p ∧ rootPath root p c) →
    ∃ bits, encode_text text ct = some bits ∧
      ∀ (extra : List Bool) (acc : List Char),
        decodeGo root (bits ++ extra) root acc = decodeGo root extra root (acc ++ text) := by
  intro text
  induction text with
  | nil =>
    intro root ct _
    exact ⟨[], rfl, fun extra acc => by simp⟩
  | cons c rest ih =>
    intro root ct h
    obtain ⟨p, hlk, hrp⟩ := h c (List.mem_cons_self c rest)
    obtain ⟨bits, hb, hdec⟩ := ih root ct (fun c' hc' => h c' (List.mem_cons_of_mem c hc'))
    refine ⟨p ++ bits, by simp [encode_text, hlk, hb], ?_⟩
    intro extra acc
    obtain ⟨b, s, m, rfl, hchild, hfa⟩ := hrp
    have hsplit : ((b :: s) ++ bits) ++ extra = b :: (s ++ (bits ++ extra)) := by simp
    rw [hsplit, decodeGo_followsAt s m c hfa root root b (bits ++ extra) acc hchild,
      hdec extra (acc ++ [c]), List.append_assoc]
    rfl

theorem decodeGo_dangling : ∀ (extra : List Bool) (n root : HuffmanNode) (acc : List Char),
    danglingWalk extra n = true → decodeGo root extra n acc = some acc := by
  intro extra
  induction extra with
  | nil => intro n root acc _; simp [decodeGo]
  | cons b rest ih =>
    intro n root acc h
    simp only [danglingWalk] at h
    cases hc : (if b then n.right else n.left) with
    | none => rw [hc] at h; simp at h
    | some m =>
      rw [hc] at h
      dsimp only at h
      cases hm : m.char with
      | some c => rw [hm] at h; simp at h
      | none =>
        rw [hm] at h
        dsimp only at h
        have hgoal : decodeGo root (b :: rest) n acc = decodeGo root rest m acc := by
          simp [decodeGo, hc, hm]
        rw [hgoal]
        exact ih m root acc h

/-! ### Claim theorems -/

/-- Claim C1: for every non-empty text, running the full pipeline —
build the frequency table, build the Huffman tree, derive the code
table, encode the text, pack the bits into bytes with a padding count,
unpack those bytes with that padding count, and decode the bit string
against the same tree — yields exactly the original text. -/
theorem C1_pipeline_roundtrip (text : List Char) (h : text ≠ []) :
    (encode_text text
      (build_code_table (build_huffman_tree (build_frequency_table text)))).bind
      (fun bits =>
        decode_text (unpack_bits (pack_bits bits).1 (pack_bits bits).2)
          (build_huffman_tree (build_frequency_table text))) = some text := by
  obtain ⟨root, hroot, hperm, hrp, _⟩ :=
    built_code_spec (build_frequency_table text) (bft_ne_nil text h)
  rw [hroot]
  have hmem : ∀ c ∈ text, ∃ p,
      (build_code_table (some root)).lookup c = some p ∧ rootPath root p c := by
    intro c hc
    have h1 : c ∈ (build_frequency_table text).map Prod.fst := bft_mem text c hc
    have h2 : c ∈ (build_code_table (some root)).map Prod.fst := hperm.mem_iff.mpr h1
    obtain ⟨p, hp⟩ := mem_lookup_some _ c h2
    exact ⟨p, hp, hrp c p (lookup_mem _ c p hp)⟩
  obtain ⟨bits, hb, hdec⟩ := decodeGo_encode text root _ hmem
  rw [hb]
  show decode_text (unpack_bits (pack_bits bits).1 (pack_bits bits).2) (some root) = some text
  rw [unpack_pack]
  show decodeGo root bits root [] = some text
  have h3 := hdec [] []
  simpa [decodeGo] using h3

/-- Witness for C1: the pipeline round-trips the concrete text "abb". -/
theorem C1_pipeline_roundtrip_witness :
    (['a', 'b', 'b'] : List Char) ≠ [] ∧
    (encode_text ['a', 'b', 'b']
      (build_code_table (build_huffman_tree (build_frequency_table ['a', 'b', 'b'])))).bind
      (fun bits =>
        decode_text (unpack_bits (pack_bits bits).1 (pack_bits bits).2)
          (build_huffman_tree (build_frequency_table ['a', 'b', 'b']))) = some ['a', 'b', 'b'] :=
  ⟨by decide, C1_pipeline_roundtrip ['a', 'b', 'b'] (by decide)⟩

/-- Claim C2: for every bit string, `pack_bits` returns a byte sequence
(values below 256) and a padding count between 0 and 7, the appended
padding bits are zero bits, the packed bit length is a multiple of 8,
and `unpack_bits` on that byte sequence and padding count returns
exactly the original bit string; the empty bit string packs to 0 bytes
with padding 0. -/
theorem C2_pack_unpack_roundtrip (bs : List Bool) :
    (pack_bits bs).2 ≤ 7 ∧
    (bs.length + (pack_bits bs).2) % 8 = 0 ∧
    (∀ byte ∈ (pack_bits bs).1, byte < 256) ∧
    ((pack_bits bs).1.map format08b).flatten = bs ++ List.replicate (pack_bits bs).2 false ∧
    unpack_bits (pack_bits bs).1 (pack_bits bs).2 = bs ∧
    pack_bits [] = ([], 0) :=
  ⟨pack_padding_le bs, pack_length_mod bs,
   fun byte hb => packBytes_lt _ byte hb,
   pack_flatten bs, unpack_pack bs, by simp [pack_bits, packBytes]⟩

/-- Claim C3: for every non-empty frequency table (keys distinct, as in
a Python dict), the derived code table has exactly one code per distinct
symbol of the table (its keys are a permutation of the table's keys),
and it is prefix-free: no symbol's code is a proper prefix of another
symbol's code. -/
theorem C3_code_table_prefix_free (ft : List (Char × Nat)) (hne : ft ≠ [])
    (hnd : (ft.map Prod.fst).Nodup) :
    ((build_code_table (build_huffman_tree ft)).map Prod.fst).Perm (ft.map Prod.fst) ∧
    (∀ c₁ c₂ p₁ p₂, c₁ ≠ c₂ →
      (build_code_table (build_huffman_tree ft)).lookup c₁ = some p₁ →
      (build_code_table (build_huffman_tree ft)).lookup c₂ = some p₂ →
      ¬(p₁ ≠ p₂ ∧ ∃ r, p₁ ++ r = p₂)) := by
  obtain ⟨root, hroot, hperm, _, hpw⟩ := built_code_spec ft hne
  rw [hroot]
  refine ⟨hperm, ?_⟩
  intro c₁ c₂ p₁ p₂ hcc h₁ h₂
  have hm₁ := lookup_mem _ _ _ h₁
  have hm₂ := lookup_mem _ _ _ h₂
  have hsym : Symmetric Sep := fun x y hxy => ⟨hxy.2, hxy.1⟩
  have hne' : ((c₁, p₁) : Char × List Bool) ≠ (c₂, p₂) := by
    intro he
    exact hcc (congrArg Prod.fst he)
  have hsep := hpw.forall hsym hm₁ hm₂ hne'
  rintro ⟨hpp, rext, hr⟩
  exact hsep.1 ⟨rext, hr⟩

/-- Witness for C3: the code table of the table {a:4, b:3, c:2}. -/
theorem C3_code_table_prefix_free_witness :
    ([('a', 4), ('b', 3), ('c', 2)] : List (Char × Nat)) ≠ [] ∧
    (([('a', 4), ('b', 3), ('c', 2)] : List (Char × Nat)).map Prod.fst).Nodup ∧
    (((build_code_table (build_huffman_tree [('a', 4), ('b', 3), ('c', 2)])).map
        Prod.fst).Perm
      (([('a', 4), ('b', 3), ('c', 2)] : List (Char × Nat)).map Prod.fst) ∧
    (∀ c₁ c₂ p₁ p₂, c₁ ≠ c₂ →
      (build_code_table (build_huffman_tree [('a', 4), ('b', 3), ('c', 2)])).lookup c₁ = some p₁ →
      (build_code_table (build_huffman_tree [('a', 4), ('b', 3), ('c', 2)])).lookup c₂ = some p₂ →
      ¬(p₁ ≠ p₂ ∧ ∃ r, p₁ ++ r = p₂))) :=
  ⟨by decide, by decide, C3_code_table_prefix_free _ (by decide) (by decide)⟩

/-- Claim C4, counterexample: on the empty frequency table
`build_huffman_tree` does not signal an error — it silently returns the
null tree `None` (`if not freq_table: return None`). -/
theorem C4_counterexample : build_huffman_tree [] = none := rfl

/-- Claim C4, amended: on an empty frequency table `build_huffman_tree`
silently returns the null tree `None` (no error is raised), and the code
table derived from that null tree is empty. -/
theorem C4_amended_returns_none :
    build_huffman_tree [] = none ∧ build_code_table (build_huffman_tree []) = [] :=
  ⟨rfl, by rw [show build_huffman_tree [] = none from rfl]; simp [build_code_table, traverse]⟩

/-- Claim C6: `compress` on an existing but empty input reports the
empty-input error and returns without creating or overwriting the output
path (the `emptyInput` outcome is the early `print`-and-`return` path,
on which the output file is never opened; in particular no archive is
written). -/
theorem C6_empty_input_rejected :
    compress true [] = CompResult.emptyInput ∧
    ∀ (t : Option HuffmanNode) (p : Nat) (d : List Nat),
      compress true [] ≠ CompResult.wroteArchive t p d := by
  refine ⟨rfl, ?_⟩
  intro t p d h
  rw [show compress true [] = CompResult.emptyInput from rfl] at h
  exact CompResult.noConfusion h

/-- Claim C7: on a frequency table with exactly one entry,
`build_huffman_tree` returns an internal root whose single (left) child
is the lone leaf, the code table has exactly the one entry `(c, "0")`
(a one-bit code), and encoding then decoding the text of that symbol
repeated N times round-trips. -/
theorem C7_single_symbol (c : Char) (f : Nat) (N : Nat) (hN : 0 < N) :
    build_huffman_tree [(c, f)] =
      some (.mk none f (some (.mk (some c) f none none)) none) ∧
    build_code_table (build_huffman_tree [(c, f)]) = [(c, [false])] ∧
    encode_text (List.replicate N c) (build_code_table (build_huffman_tree [(c, f)])) =
      some (List.replicate N false) ∧
    decode_text (List.replicate N false) (build_huffman_tree [(c, f)]) =
      some (List.replicate N c) := by
  have htree : build_huffman_tree [(c, f)] =
      some (.mk none f (some (.mk (some c) f none none)) none) := rfl
  have hct : build_code_table (build_huffman_tree [(c, f)]) = [(c, [false])] := by
    rw [htree]
    simp [build_code_table, traverse]
  refine ⟨htree, hct, ?_, ?_⟩
  · rw [hct]
    have henc : ∀ M, encode_text (List.replicate M c) [(c, [false])] =
        some (List.replicate M false) := by
      intro M
      induction M with
      | zero => simp [encode_text]
      | succ M ihM =>
        rw [List.replicate_succ, List.replicate_succ]
        simp [encode_text, List.lookup, ihM]
    exact henc N
  · rw [htree]
    show decodeGo _ (List.replicate N false) _ [] = some (List.replicate N c)
    have hdec : ∀ M acc, decodeGo (.mk none f (some (.mk (some c) f none none)) none)
        (List.replicate M false) (.mk none f (some (.mk (some c) f none none)) none) acc
        = some (acc ++ List.replicate M c) := by
      intro M
      induction M with
      | zero => intro acc; simp [decodeGo]
      | succ M ihM =>
        intro acc
        rw [List.replicate_succ]
        have hstep : decodeGo (.mk none f (some (.mk (some c) f none none)) none)
            (false :: List.replicate M false)
            (.mk none f (some (.mk (some c) f none none)) none) acc
            = decodeGo (.mk none f (some (.mk (some c) f none none)) none)
              (List.replicate M false)
              (.mk none f (some (.mk (some c) f none none)) none) (acc ++ [c]) := by
          simp [decodeGo, HuffmanNode.left, HuffmanNode.char]
        rw [hstep, ihM (acc ++ [c])]
        simp [List.replicate_succ]
    simpa using hdec N []

/-- Witness for C7 at the table {x:5} and N = 3. -/
theorem C7_single_symbol_witness :
    (0 < 3) ∧
    (build_huffman_tree [('x', 5)] =
      some (.mk none 5 (some (.mk (some 'x') 5 none none)) none) ∧
    build_code_table (build_huffman_tree [('x', 5)]) = [('x', [false])] ∧
    encode_text (List.replicate 3 'x') (build_code_table (build_huffman_tree [('x', 5)])) =
      some (List.replicate 3 false) ∧
    decode_text (List.replicate 3 false) (build_huffman_tree [('x', 5)]) =
      some (List.replicate 3 'x')) :=
  ⟨by decide, C7_single_symbol 'x' 5 3 (by decide)⟩

/-- Claim C9: `decode_text` is not total: on any tree built from a
single-entry frequency table (whose root has no right child), any bit
string containing a '1' makes the walk step into the missing right
child, and the subsequent leaf test dereferences `None` — an
`AttributeError` crash, embedded as the `none` result. -/
theorem C9_decode_crash_on_one (c : Char) (f : Nat) (bits : List Bool) (h : true ∈ bits) :
    decode_text bits (build_huffman_tree [(c, f)]) = none := by
  have htree : build_huffman_tree [(c, f)] =
      some (.mk none f (some (.mk (some c) f none none)) none) := rfl
  rw [htree]
  show decodeGo _ bits _ [] = none
  have hgen : ∀ (bs : List Bool) (acc : List Char), true ∈ bs →
      decodeGo (.mk none f (some (.mk (some c) f none none)) none) bs
        (.mk none f (some (.mk (some c) f none none)) none) acc = none := by
    intro bs
    induction bs with
    | nil => intro acc h0; simp at h0
    | cons b rest ih =>
      intro acc h0
      cases b with
      | true => simp [decodeGo, HuffmanNode.right]
      | false =>
        have hrest : true ∈ rest := by
          rcases List.mem_cons.mp h0 with h1 | h1
          · simp at h1
          · exact h1
        have hstep : decodeGo (.mk none f (some (.mk (some c) f none none)) none)
            (false :: rest) (.mk none f (some (.mk (some c) f none none)) none) acc
            = decodeGo (.mk none f (some (.mk (some c) f none none)) none) rest
              (.mk none f (some (.mk (some c) f none none)) none) (acc ++ [c]) := by
          simp [decodeGo, HuffmanNode.left, HuffmanNode.char]
        rw [hstep]
        exact ih (acc ++ [c]) hrest
  exact hgen bits [] h

/-- Witness for C9: decoding the bits "01" against the tree of {a:2}
crashes. -/
theorem C9_decode_crash_on_one_witness :
    (true ∈ [false, true]) ∧
    decode_text [false, true] (build_huffman_tree [('a', 2)]) = none :=
  ⟨by decide, C9_decode_crash_on_one 'a' 2 [false, true] (by decide)⟩

/-- Claim C10: when `decode_text` exhausts its input while the walk is
mid-tree (the trailing bits form a dangling walk that never reaches a
leaf), it silently returns the symbols decoded so far — the decoded
prefix — discarding the leftover bits and raising no error. -/
theorem C10_trailing_bits_dropped (text : List Char) (extra : List Bool)
    (h1 : text ≠ []) (h2 : extra ≠ []) :
    ∀ root, build_huffman_tree (build_frequency_table text) = some root →
      danglingWalk extra root = true →
      (encode_text text (build_code_table (some root))).bind
        (fun bits => decode_text (bits ++ extra) (some root)) = some text := by
  intro root hroot hdw
  obtain ⟨root', hroot', hperm, hrp, _⟩ :=
    built_code_spec (build_frequency_table text) (bft_ne_nil text h1)
  rw [hroot] at hroot'
  injection hroot' with he
  subst he
  have hmem : ∀ c ∈ text, ∃ p,
      (build_code_table (some root)).lookup c = some p ∧ rootPath root p c := by
    intro c hc
    have ha : c ∈ (build_frequency_table text).map Prod.fst := bft_mem text c hc
    have hb : c ∈ (build_code_table (some root)).map Prod.fst := hperm.mem_iff.mpr ha
    obtain ⟨p, hp⟩ := mem_lookup_some _ c hb
    exact ⟨p, hp, hrp c p (lookup_mem _ c p hp)⟩
  obtain ⟨bits, hb, hdec⟩ := decodeGo_encode text root _ hmem
  rw [hb]
  show decode_text (bits ++ extra) (some root) = some text
  show decodeGo root (bits ++ extra) root [] = some text
  rw [hdec extra []]
  simpa using decodeGo_dangling extra root root ([] ++ text) hdw

/-- Witness for C10: text "abbccc" encodes and then one extra '1'
(stepping into the internal left subtree) is silently discarded. -/
theorem C10_trailing_bits_dropped_witness :
    (['a', 'b', 'b', 'c', 'c', 'c'] : List Char) ≠ [] ∧
    ([false] : List Bool) ≠ [] ∧
    build_huffman_tree (build_frequency_table ['a', 'b', 'b', 'c', 'c', 'c']) =
      some (HuffmanNode.mk none 6
        (some (HuffmanNode.mk none 3 (some (HuffmanNode.mk (some 'a') 1 none none))
          (some (HuffmanNode.mk (some 'b') 2 none none))))
        (some (HuffmanNode.mk (some 'c') 3 none none))) ∧
    danglingWalk [false] (HuffmanNode.mk none 6
        (some (HuffmanNode.mk none 3 (some (HuffmanNode.mk (some 'a') 1 none none))
          (some (HuffmanNode.mk (some 'b') 2 none none))))
        (some (HuffmanNode.mk (some 'c') 3 none none))) = true ∧
    (encode_text ['a', 'b', 'b', 'c', 'c', 'c']
      (build_code_table (some (HuffmanNode.mk none 6
        (some (HuffmanNode.mk none 3 (some (HuffmanNode.mk (some 'a') 1 none none))
          (some (HuffmanNode.mk (some 'b') 2 none none))))
        (some (HuffmanNode.mk (some 'c') 3 none none)))))).bind
      (fun bits => decode_text (bits ++ [false])
        (some (HuffmanNode.mk none 6
          (some (HuffmanNode.mk none 3 (some (HuffmanNode.mk (some 'a') 1 none none))
            (some (HuffmanNode.mk (some 'b') 2 none none))))
          (some (HuffmanNode.mk (some 'c') 3 none none))))) =
      some ['a', 'b', 'b', 'c', 'c', 'c'] :=
  ⟨by decide, by decide, rfl, rfl,
    C10_trailing_bits_dropped ['a', 'b', 'b', 'c', 'c', 'c'] [false]
      (by decide) (by decide) _ rfl rfl⟩

/-- Claim C5, counterexample: the archive that deserializes to the pair
`(None, 0)` with an empty payload exists and is not a product of
`compress` (every `compress` archive stores a non-null tree), yet
`decompress` does not surface any Corrupt-compressed-file error on it —
it silently writes empty output and reports success. -/
theorem C5_counterexample :
    (∀ (text : List Char) (t : Option HuffmanNode) (p : Nat) (d : List Nat),
      compress true text = CompResult.wroteArchive t p d → t.isSome = true) ∧
    decompress true (some (none, 0, [])) = DecResult.wrote [] := by
  constructor
  · intro text t p d h
    by_cases htext : text = []
    · subst htext
      rw [show compress true [] = CompResult.emptyInput from rfl] at h
      exact CompResult.noConfusion h
    · simp only [compress, Bool.not_true, Bool.false_eq_true, if_false, if_neg htext] at h
      cases henc : encode_text text
          (build_code_table (build_huffman_tree (build_frequency_table text))) with
      | none => rw [henc] at h; exact CompResult.noConfusion h
      | some e =>
        rw [henc] at h
        dsimp only at h
        have ht : t = build_huffman_tree (build_frequency_table text) := by
          cases h
          rfl
        rcases build_tree_cases _ (bft_ne_nil text htext) with ⟨c, f, _, hb⟩ | ⟨tt, hb, _⟩ <;>
          rw [ht, hb] <;> rfl
  · rfl

/-- Claim C5, amended: `decompress` performs no validation at all.  An
input that fails to deserialize crashes with an uncaught exception; a
deserializable input whose payload walks into a missing child (here the
single-symbol tree with a 0xFF payload byte) also crashes; and other
non-`compress` inputs (here the pickled pair `(None, 0)`) silently
write output with no error.  No Corrupt-compressed-file error exists in
the code. -/
theorem C5_amended_no_validation :
    decompress true none = DecResult.crashed ∧
    decompress true (some (build_huffman_tree [('a', 1)], 0, [255])) = DecResult.crashed ∧
    decompress true (some (none, 0, [])) = DecResult.wrote [] := by
  refine ⟨rfl, ?_, rfl⟩
  rfl

/-! ### Lemmas towards the entropy bounds: the merge loop picks minimal
frequencies, builds weight-consistent trees, and its cost is the
weighted external path length -/

theorem popMin_min : ∀ {l : List HuffmanNode} {x r}, popMin l = some (x, r) →
    ∀ z ∈ r, x.freq ≤ z.freq := by
  intro l
  induction l with
  | nil => intro x r h; simp [popMin] at h
  | cons a xs ih =>
    intro x r h z hz
    simp only [popMin] at h
    cases hx : popMin xs with
    | none =>
      rw [hx] at h; dsimp only at h
      simp only [Option.some.injEq, Prod.mk.injEq] at h
      obtain ⟨rfl, rfl⟩ := h
      simp at hz
    | some p =>
      obtain ⟨y, ys⟩ := p
      rw [hx] at h; dsimp only at h
      by_cases hf : y.freq < a.freq
      · rw [if_pos hf] at h
        simp only [Option.some.injEq, Prod.mk.injEq] at h
        obtain ⟨rfl, rfl⟩ := h
        rcases List.mem_cons.mp hz with rfl | hz'
        · omega
        · exact ih hx z hz'
      · rw [if_neg hf] at h
        simp only [Option.some.injEq, Prod.mk.injEq] at h
        obtain ⟨rfl, rfl⟩ := h
        have hperm := popMin_perm hx
        have hz2 : z ∈ y :: ys := hperm.mem_iff.mp hz
        rcases List.mem_cons.mp hz2 with rfl | hz'
        · omega
        · have := ih hx z hz'
          omega

theorem good_full {t : HuffmanNode} (h : Good t) : Full t := by
  induction h with
  | leaf c f => exact Full.leaf c f
  | node l r _ _ ihl ihr => exact Full.node _ l r ihl ihr

theorem buildLoop_good_spec :
    ∀ (fuel : Nat) (l : List HuffmanNode), l ≠ [] → l.length ≤ fuel + 1 →
      (∀ x ∈ l, Good x) →
      ∃ t, buildLoop fuel l = some t ∧ Good t ∧
        (nodePairs (some t)).Perm ((l.map fun x => nodePairs (some x)).flatten) := by
  intro fuel
  induction fuel with
  | zero =>
    intro l hne hlen hfull
    match l, hne, hlen with
    | [t], _, _ =>
      exact ⟨t, rfl, hfull t (List.mem_singleton_self t), by simp⟩
    | t₁ :: t₂ :: rest, _, hlen => simp at hlen
  | succ fuel ih =>
    intro l hne hlen hfull
    match l with
    | [t] => exact ⟨t, rfl, hfull t (List.mem_singleton_self t), by simp⟩
    | a :: b :: ys =>
      obtain ⟨x, r, hx⟩ : ∃ x r, popMin (a :: b :: ys) = some (x, r) := by
        cases h : popMin (a :: b :: ys) with
        | none => exact absurd (popMin_eq_none.mp h) (by simp)
        | some p => obtain ⟨xx, rr⟩ := p; exact ⟨xx, rr, rfl⟩
      have hrlen : r.length = ys.length + 1 := by
        have := popMin_length hx; simpa using this.symm
      obtain ⟨y, r2, hy⟩ : ∃ y r2, popMin r = some (y, r2) := by
        cases h : popMin r with
        | none =>
          exfalso
          have : r = [] := popMin_eq_none.mp h
          rw [this] at hrlen; simp at hrlen
        | some p => obtain ⟨xx, rr⟩ := p; exact ⟨xx, rr, rfl⟩
      have hr2len : r2.length = ys.length := by
        have := popMin_length hy; omega
      have hunfold : buildLoop (fuel + 1) (a :: b :: ys) =
          buildLoop fuel (HuffmanNode.mk none (x.freq + y.freq) (some x) (some y) :: r2) := by
        rw [buildLoop.eq_def]
        simp only [hx, hy]
      have hfull2 : ∀ z ∈ HuffmanNode.mk none (x.freq + y.freq) (some x) (some y) :: r2,
          Good z := by
        intro z hz
        rcases List.mem_cons.mp hz with rfl | hz
        · exact Good.node x y (hfull x (popMin_mem hx))
            (hfull y (popMin_subset hx y (popMin_mem hy)))
        · exact hfull z (popMin_subset hx z (popMin_subset hy z hz))
      obtain ⟨t, ht, htf, htc⟩ := ih (HuffmanNode.mk none (x.freq + y.freq) (some x) (some y) :: r2)
        (by simp) (by simp only [List.length_cons] at hlen ⊢; omega) hfull2
      refine ⟨t, by rw [hunfold]; exact ht, htf, ?_⟩
      have heq : ((HuffmanNode.mk none (x.freq + y.freq) (some x) (some y) :: r2).map
            fun z => nodePairs (some z)).flatten
          = ((x :: y :: r2).map fun z => nodePairs (some z)).flatten := by
        simp [nodePairs]
      rw [heq] at htc
      have hp : (a :: b :: ys).Perm (x :: y :: r2) :=
        (popMin_perm hx).trans ((popMin_perm hy).cons x)
      exact htc.trans ((hp.map fun z => nodePairs (some z)).flatten).symm

theorem leafData_pairs : ∀ (o : Option HuffmanNode) (d : Nat),
    (leafData o d).map (fun x => (x.1, x.2.1)) = nodePairs o := by
  intro o d
  induction o, d using leafData.induct with
  | case1 _ => simp [leafData, nodePairs]
  | case2 c f left right d => simp [leafData, nodePairs]
  | case3 f left right d ihl ihr => simp [leafData, nodePairs, ihl, ihr]

theorem leafData_freq_sum : ∀ (t : HuffmanNode), Good t → ∀ d : Nat,
    ((leafData (some t) d).map fun x => x.2.1).sum = t.freq := by
  intro t hg
  induction hg with
  | leaf c f => intro d; simp [leafData, HuffmanNode.freq]
  | node l r _ _ ihl ihr =>
    intro d
    simp [leafData, HuffmanNode.freq, ihl (d + 1), ihr (d + 1)]

theorem leafData_cost : ∀ (t : HuffmanNode), Good t → ∀ d : Nat,
    ((leafData (some t) d).map fun x => x.2.1 * x.2.2).sum
      = hcost (some t) + d * t.freq := by
  intro t hg
  induction hg with
  | leaf c f => intro d; simp [leafData, hcost, HuffmanNode.freq]; ring
  | node l r hgl hgr ihl ihr =>
    intro d
    have hfl := leafData_freq_sum l hgl (d + 1)
    have hfr := leafData_freq_sum r hgr (d + 1)
    simp only [leafData, List.map_append, List.sum_append, ihl (d + 1), ihr (d + 1),
      hcost, HuffmanNode.freq]
    ring

/-! ### Weight/length profiles: permutation invariance, the exchange
inequality, and Kraft-sum arithmetic -/

theorem swap_cost {w₁ l₁ w₂ l₂ : Nat} (hw : w₁ ≤ w₂) (hl : l₁ ≤ l₂) :
    w₁ * l₂ + w₂ * l₁ ≤ w₁ * l₁ + w₂ * l₂ := by
  obtain ⟨d, rfl⟩ := Nat.le.dest hw
  obtain ⟨e, rfl⟩ := Nat.le.dest hl
  ring_nf
  nlinarith [Nat.zero_le (d * e)]

theorem profCost_perm {p q : List (Nat × Nat)} (h : p.Perm q) : profCost p = profCost q := by
  unfold profCost
  exact (h.map fun x => x.1 * x.2).sum_eq

theorem kraftS_perm {m : Nat} {p q : List (Nat × Nat)} (h : p.Perm q) :
    kraftS m p = kraftS m q := by
  unfold kraftS
  exact (h.map fun x => 2 ^ (m - x.2)).sum_eq

theorem kraftS_of_snd_perm {m : Nat} {p q : List (Nat × Nat)}
    (h : (p.map Prod.snd).Perm (q.map Prod.snd)) : kraftS m p = kraftS m q := by
  have h2 := (h.map fun l => 2 ^ (m - l)).sum_eq
  simpa [kraftS, List.map_map, Function.comp] using h2

theorem perm_extract {α : Type} {l : List α} {x : α} (h : x ∈ l) :
    ∃ l', l.Perm (x :: l') := by
  induction l with
  | nil => simp at h
  | cons a rest ih =>
    rcases List.mem_cons.mp h with rfl | h'
    · exact ⟨rest, List.Perm.refl _⟩
    · obtain ⟨l', hl'⟩ := ih h'
      exact ⟨a :: l', (hl'.cons a).trans (List.Perm.swap x a l')⟩

theorem extract_weight {prof : List (Nat × Nat)} {a : Nat} (h : a ∈ prof.map Prod.fst) :
    ∃ la prof', prof.Perm ((a, la) :: prof') := by
  obtain ⟨e, he, hfst⟩ := List.mem_map.mp h
  obtain ⟨w, l⟩ := e
  cases hfst
  obtain ⟨prof', hp⟩ := perm_extract he
  exact ⟨l, prof', hp⟩

theorem perm_shift3 {α : Type} (u v y : α) (L : List α) :
    (u :: v :: y :: L).Perm (y :: u :: v :: L) :=
  ((List.Perm.swap y v L).cons u).trans (List.Perm.swap y u (v :: L))

theorem perm_insert3 {α : Type} (y : α) {p q : List α} {a b a' b' : α}
    (h : (a :: b :: p).Perm (a' :: b' :: q)) :
    (a :: b :: y :: p).Perm (a' :: b' :: y :: q) :=
  (perm_shift3 a b y p).trans ((h.cons y).trans (perm_shift3 a' b' y q).symm)

theorem kraft_factor : ∀ (P : List (Nat × Nat)) (c m : Nat), c ≤ m → (∀ x ∈ P, x.2 ≤ c) →
    kraftS m P = 2 ^ (m - c) * ((P.map fun x => 2 ^ (c - x.2)).sum) := by
  intro P
  induction P with
  | nil => intro c m _ _; simp [kraftS]
  | cons x rest ih =>
    intro c m hcm hle
    have hx : x.2 ≤ c := hle x (List.mem_cons_self _ _)
    have hrest := ih c m hcm fun z hz => hle z (List.mem_cons_of_mem _ hz)
    have hexp : m - x.2 = (m - c) + (c - x.2) := by omega
    simp only [kraftS, List.map_cons, List.sum_cons] at hrest ⊢
    rw [hrest, hexp, pow_add, Nat.mul_add]

theorem rearrange : ∀ (ps : List (Nat × Nat)) (a b la lb : Nat),
    a ≤ b → (∀ x ∈ ps, b ≤ x.1) →
    ∃ la' lb' ps',
      ((((a, la) :: (b, lb) :: ps).map Prod.snd).Perm
        (((a, la') :: (b, lb') :: ps').map Prod.snd)) ∧
      (ps'.map Prod.fst).Perm (ps.map Prod.fst) ∧
      (∀ x ∈ ps', x.2 ≤ lb') ∧ lb' ≤ la' ∧
      profCost ((a, la') :: (b, lb') :: ps') ≤ profCost ((a, la) :: (b, lb) :: ps) := by
  intro ps
  induction ps with
  | nil =>
    intro a b la lb hab _
    by_cases h : lb ≤ la
    · exact ⟨la, lb, [], List.Perm.refl _, List.Perm.refl _, by simp, h, le_refl _⟩
    · refine ⟨lb, la, [], ?_, List.Perm.refl _, by simp, by omega, ?_⟩
      · simpa using List.Perm.swap lb la []
      · have := swap_cost hab (show la ≤ lb by omega)
        simp only [profCost, List.map_cons, List.map_nil, List.sum_cons, List.sum_nil]
        omega
  | cons e ps₀ ih =>
    intro a b la lb hab hmin
    obtain ⟨w, l⟩ := e
    have hw : b ≤ w := hmin (w, l) (List.mem_cons_self _ _)
    obtain ⟨la', lb', ps₀', hlenperm, hwperm, hps', hline, hc⟩ :=
      ih a b la lb hab (fun x hx => hmin x (List.mem_cons_of_mem _ hx))
    have hcost' : profCost ((a, la') :: (b, lb') :: ps₀') + w * l ≤
        profCost ((a, la) :: (b, lb) :: ps₀) + w * l := by omega
    by_cases h1 : l ≤ lb'
    · refine ⟨la', lb', (w, l) :: ps₀', ?_, hwperm.cons w, ?_, hline, ?_⟩
      · simpa using perm_insert3 l hlenperm
      · intro x hx
        rcases List.mem_cons.mp hx with rfl | hx'
        · exact h1
        · exact hps' x hx'
      · simp only [profCost, List.map_cons, List.sum_cons] at hc ⊢
        omega
    · by_cases h2 : l ≤ la'
      · -- lb' < l ≤ la': b takes l, the new entry keeps lb'
        refine ⟨la', l, (w, lb') :: ps₀', ?_, hwperm.cons w, ?_, h2, ?_⟩
        · have step1 := perm_insert3 l hlenperm
          have step2 : (la' :: lb' :: l :: ps₀'.map Prod.snd).Perm
              (la' :: l :: lb' :: ps₀'.map Prod.snd) :=
            (List.Perm.swap l lb' (ps₀'.map Prod.snd)).cons la'
          simpa using step1.trans step2
        · intro x hx
          rcases List.mem_cons.mp hx with rfl | hx'
          · omega
          · have := hps' x hx'
            omega
        · have hs := swap_cost hw (show lb' ≤ l by omega)
          simp only [profCost, List.map_cons, List.sum_cons] at hc ⊢
          -- goal: a*la' + (b*l + (w*lb' + S')) ≤ a*la + (b*lb + (w*l + S))
          -- from hc : a*la' + (b*lb' + S') ≤ a*la + (b*lb + S)
          -- and hs : b*l + w*lb' ≤ b*lb' + w*l
          omega
      · -- la' < l: a takes l, b takes la', the new entry keeps lb'
        refine ⟨l, la', (w, lb') :: ps₀', ?_, hwperm.cons w, ?_, by omega, ?_⟩
        · have step1 := perm_insert3 l hlenperm
          have step2 := perm_shift3 la' lb' l (ps₀'.map Prod.snd)
          simpa using step1.trans step2
        · intro x hx
          rcases List.mem_cons.mp hx with rfl | hx'
          · exact hline
          · exact le_trans (hps' x hx') hline
        · have hs1 := swap_cost (le_trans hab hw) (show la' ≤ l by omega)
          have hs2 := swap_cost hw hline
          simp only [profCost, List.map_cons, List.sum_cons] at hc ⊢
          -- hs1 : a*l + w*la' ≤ a*la' + w*l
          -- hs2 : b*la' + w*lb' ≤ b*lb' + w*la'
          omega

theorem merge_profile (prof : List (Nat × Nat)) (m a b : Nat) (ws : List Nat)
    (hperm : (prof.map Prod.fst).Perm (a :: b :: ws))
    (hab : a ≤ b) (hbmin : ∀ w ∈ ws, b ≤ w)
    (hbound : ∀ x ∈ prof, x.2 ≤ m) (hkraft : kraftS m prof ≤ 2 ^ m) :
    ∃ prof', ((prof'.map Prod.fst).Perm ((a + b) :: ws)) ∧
      (∀ x ∈ prof', x.2 ≤ m) ∧ kraftS m prof' ≤ 2 ^ m ∧
      a + b + profCost prof' ≤ profCost prof := by
  have ha : a ∈ prof.map Prod.fst := hperm.mem_iff.mpr (List.mem_cons_self _ _)
  obtain ⟨la, prof₁, hp1⟩ := extract_weight ha
  have hw1 : (prof₁.map Prod.fst).Perm (b :: ws) :=
    (((hp1.map Prod.fst).symm).trans hperm).cons_inv
  have hb : b ∈ prof₁.map Prod.fst := hw1.mem_iff.mpr (List.mem_cons_self _ _)
  obtain ⟨lb, ps, hp2⟩ := extract_weight hb
  have hwps : (ps.map Prod.fst).Perm ws :=
    (((hp2.map Prod.fst).symm).trans hw1).cons_inv
  have hprof : prof.Perm ((a, la) :: (b, lb) :: ps) := hp1.trans (hp2.cons _)
  have hbound2 : ∀ x ∈ (a, la) :: (b, lb) :: ps, x.2 ≤ m :=
    fun x hx => hbound x (hprof.mem_iff.mpr hx)
  have hkraft2 : kraftS m ((a, la) :: (b, lb) :: ps) ≤ 2 ^ m := by
    rw [← kraftS_perm hprof]; exact hkraft
  have hcost2 : profCost ((a, la) :: (b, lb) :: ps) = profCost prof :=
    (profCost_perm hprof).symm
  have hminps : ∀ x ∈ ps, b ≤ x.1 := by
    intro x hx
    exact hbmin x.1 (hwps.mem_iff.mp (List.mem_map_of_mem Prod.fst hx))
  obtain ⟨la', lb', ps', hlen, hwps', hps'b, hline, hcost3⟩ := rearrange ps a b la lb hab hminps
  have hkraft3 : kraftS m ((a, la') :: (b, lb') :: ps') ≤ 2 ^ m := by
    rw [← kraftS_of_snd_perm hlen]; exact hkraft2
  have hbound3 : ∀ x ∈ (a, la') :: (b, lb') :: ps', x.2 ≤ m := by
    intro x hx
    have h1 : x.2 ∈ ((a, la') :: (b, lb') :: ps').map Prod.snd := List.mem_map_of_mem _ hx
    have h2 : x.2 ∈ ((a, la) :: (b, lb) :: ps).map Prod.snd := hlen.mem_iff.mpr h1
    obtain ⟨y, hy, hy2⟩ := List.mem_map.mp h2
    rw [← hy2]
    exact hbound2 y hy
  have hlam : la' ≤ m := hbound3 (a, la') (List.mem_cons_self _ _)
  have hlbm : lb' ≤ m := hbound3 (b, lb') (List.mem_cons_of_mem _ (List.mem_cons_self _ _))
  -- factor the Kraft sum of the (b, lb') :: ps' part at scale lb'
  have hfac : kraftS m ((b, lb') :: ps') =
      2 ^ (m - lb') * ((((b, lb') :: ps').map fun x => 2 ^ (lb' - x.2)).sum) := by
    apply kraft_factor
    · exact hlbm
    · intro x hx
      rcases List.mem_cons.mp hx with rfl | hx'
      · exact le_refl _
      · exact hps'b x hx'
  set M := (((b, lb') :: ps').map fun x => 2 ^ (lb' - x.2)).sum with hM
  have hM1 : 1 ≤ M := by
    rw [hM]
    simp only [List.map_cons, List.sum_cons, Nat.sub_self, pow_zero]
    omega
  have hsplit : kraftS m ((a, la') :: (b, lb') :: ps') =
      2 ^ (m - la') + kraftS m ((b, lb') :: ps') := by
    simp [kraftS]
  have hMlt : M < 2 ^ lb' := by
    have hpos : 0 < 2 ^ (m - la') := Nat.pos_pow_of_pos _ (by omega)
    have h1 : 2 ^ (m - lb') * M < 2 ^ m := by
      rw [hsplit, hfac] at hkraft3
      omega
    have h2 : (2 : Nat) ^ m = 2 ^ (m - lb') * 2 ^ lb' := by
      rw [← pow_add]
      congr 1
      omega
    rw [h2] at h1
    exact Nat.lt_of_mul_lt_mul_left h1
  have hlb1 : 1 ≤ lb' := by
    by_contra h0
    have : lb' = 0 := by omega
    subst this
    simp at hMlt
    omega
  have hkraftNew : kraftS m ((a + b, lb' - 1) :: ps') ≤ 2 ^ m := by
    have he1 : m - (lb' - 1) = (m - lb') + 1 := by omega
    have hfac2 : kraftS m ((b, lb') :: ps') = 2 ^ (m - lb') * M := hfac
    obtain ⟨M', hM'⟩ : ∃ M', M = M' + 1 := ⟨M - 1, by omega⟩
    rw [hM'] at hfac2 hMlt
    rw [Nat.mul_add, Nat.mul_one] at hfac2
    have hnew : kraftS m ((a + b, lb' - 1) :: ps') =
        2 ^ ((m - lb') + 1) + 2 ^ (m - lb') * M' := by
      simp only [kraftS, List.map_cons, List.sum_cons] at hfac2 ⊢
      rw [he1]
      omega
    rw [hnew, pow_succ]
    have h2 : (2 : Nat) ^ m = 2 ^ (m - lb') * 2 ^ lb' := by
      rw [← pow_add]; congr 1; omega
    rw [h2]
    have hM2 : M' + 2 ≤ 2 ^ lb' := by omega
    calc 2 ^ (m - lb') * 2 + 2 ^ (m - lb') * M' = 2 ^ (m - lb') * (M' + 2) := by ring
      _ ≤ 2 ^ (m - lb') * 2 ^ lb' := Nat.mul_le_mul_left _ hM2
  refine ⟨(a + b, lb' - 1) :: ps', ?_, ?_, hkraftNew, ?_⟩
  · exact (hwps'.trans hwps).cons (a + b)
  · intro x hx
    rcases List.mem_cons.mp hx with rfl | hx'
    · simp only
      omega
    · exact le_trans (hps'b x hx') (le_trans hline hlam)
  · -- cost: a + b + (a+b)(lb'-1) + Σ ps' ≤ a·la' + b·lb' + Σ ps' ≤ original
    obtain ⟨k, hk⟩ : ∃ k, lb' = k + 1 := ⟨lb' - 1, by omega⟩
    subst hk
    have hmul : a * (k + 1) ≤ a * la' := Nat.mul_le_mul_left a hline
    simp only [profCost, List.map_cons, List.sum_cons, Nat.add_sub_cancel] at hcost3 hcost2 ⊢
    have hexpand : (a + b) * k = a * k + b * k := by ring
    have hexpand2 : a * (k + 1) = a * k + a := by ring
    have hexpand3 : b * (k + 1) = b * k + b := by ring
    omega

/-- Optimality of the greedy merge loop: its total cost (weighted
external path length) is at most the cost of ANY weight/length profile
for the same weights whose scaled Kraft sum is admissible — in
particular, of the length profile of any prefix-free code. -/
theorem buildLoop_optimal :
    ∀ (fuel : Nat) (l : List HuffmanNode), l ≠ [] → l.length ≤ fuel + 1 →
      ∀ t, buildLoop fuel l = some t →
      ∀ (prof : List (Nat × Nat)) (m : Nat),
        ((prof.map Prod.fst).Perm (l.map HuffmanNode.freq)) →
        (∀ x ∈ prof, x.2 ≤ m) →
        kraftS m prof ≤ 2 ^ m →
        hcost (some t) ≤ (l.map fun x => hcost (some x)).sum + profCost prof := by
  intro fuel
  induction fuel with
  | zero =>
    intro l hne hlen t ht prof m hperm hbound hkraft
    match l, hne, hlen, ht with
    | [x], _, _, ht =>
      have hxt : x = t := by simpa [buildLoop] using ht
      subst hxt
      simp only [List.map_cons, List.map_nil, List.sum_cons, List.sum_nil]
      omega
    | a :: b :: ys, _, hlen, _ => simp at hlen
  | succ fuel ih =>
    intro l hne hlen t ht prof m hperm hbound hkraft
    match l, hlen, ht with
    | [x], _, ht =>
      have hxt : x = t := by simpa [buildLoop] using ht
      subst hxt
      simp only [List.map_cons, List.map_nil, List.sum_cons, List.sum_nil]
      omega
    | a :: b :: ys, hlen, ht =>
      obtain ⟨x, r, hx⟩ : ∃ x r, popMin (a :: b :: ys) = some (x, r) := by
        cases h : popMin (a :: b :: ys) with
        | none => exact absurd (popMin_eq_none.mp h) (by simp)
        | some p => obtain ⟨xx, rr⟩ := p; exact ⟨xx, rr, rfl⟩
      have hrlen : r.length = ys.length + 1 := by
        have := popMin_length hx; simpa using this.symm
      obtain ⟨y, r2, hy⟩ : ∃ y r2, popMin r = some (y, r2) := by
        cases h : popMin r with
        | none =>
          exfalso
          have : r = [] := popMin_eq_none.mp h
          rw [this] at hrlen; simp at hrlen
        | some p => obtain ⟨xx, rr⟩ := p; exact ⟨xx, rr, rfl⟩
      have hr2len : r2.length = ys.length := by
        have := popMin_length hy; omega
      have hunfold : buildLoop (fuel + 1) (a :: b :: ys) =
          buildLoop fuel (HuffmanNode.mk none (x.freq + y.freq) (some x) (some y) :: r2) := by
        rw [buildLoop.eq_def]
        simp only [hx, hy]
      rw [hunfold] at ht
      -- weight permutations
      have hpl : (a :: b :: ys).Perm (x :: y :: r2) :=
        (popMin_perm hx).trans ((popMin_perm hy).cons x)
      have hwperm : (prof.map Prod.fst).Perm
          (x.freq :: y.freq :: r2.map HuffmanNode.freq) := by
        refine hperm.trans ?_
        simpa using hpl.map HuffmanNode.freq
      -- minimality of the two popped frequencies
      have hxy : x.freq ≤ y.freq := popMin_min hx y (popMin_mem hy)
      have hymin : ∀ w ∈ r2.map HuffmanNode.freq, y.freq ≤ w := by
        intro w hw
        obtain ⟨z, hz, rfl⟩ := List.mem_map.mp hw
        exact popMin_min hy z hz
      obtain ⟨prof', hperm2, hbound2, hkraft2, hcost2⟩ :=
        merge_profile prof m x.freq y.freq (r2.map HuffmanNode.freq)
          hwperm hxy hymin hbound hkraft
      have hperm3 : (prof'.map Prod.fst).Perm
          ((HuffmanNode.mk none (x.freq + y.freq) (some x) (some y) :: r2).map
            HuffmanNode.freq) := by
        simpa [HuffmanNode.freq] using hperm2
      have hle := ih (HuffmanNode.mk none (x.freq + y.freq) (some x) (some y) :: r2)
        (by simp) (by simp only [List.length_cons] at hlen ⊢; omega) t ht prof' m
        hperm3 hbound2 hkraft2
      -- rewrite the cost sums
      have hsum : ((a :: b :: ys).map fun z => hcost (some z)).sum
          = hcost (some x) + hcost (some y) + ((r2.map fun z => hcost (some z)).sum) := by
        have hq := (hpl.map fun z => hcost (some z)).sum_eq
        simp only [List.map_cons, List.sum_cons] at hq ⊢
        omega
      have hparent : hcost (some (HuffmanNode.mk none (x.freq + y.freq) (some x) (some y)))
          = (x.freq + y.freq) + hcost (some x) + hcost (some y) := by
        simp [hcost]
      have hsum2 : ((HuffmanNode.mk none (x.freq + y.freq) (some x) (some y) :: r2).map
          fun z => hcost (some z)).sum
          = (x.freq + y.freq) + hcost (some x) + hcost (some y)
            + ((r2.map fun z => hcost (some z)).sum) := by
        rw [List.map_cons, List.sum_cons, hparent]
      rw [hsum2] at hle
      rw [hsum]
      omega

/-! ### Bridging the merge-loop cost to the code-table lengths -/

theorem lookup_of_mem_nodup : ∀ (l : List (Char × List Bool)) (c : Char) (p : List Bool),
    (l.map Prod.fst).Nodup → (c, p) ∈ l → l.lookup c = some p := by
  intro l
  induction l with
  | nil => intro c p _ h; simp at h
  | cons e rest ih =>
    intro c p hnd h
    obtain ⟨a, q⟩ := e
    simp only [List.map_cons, List.nodup_cons] at hnd
    rcases List.mem_cons.mp h with heq | h'
    · simp only [Prod.mk.injEq] at heq
      obtain ⟨rfl, rfl⟩ := heq
      simp [List.lookup]
    · have hca : c ≠ a := by
        rintro rfl
        exact hnd.1 (List.mem_map_of_mem Prod.fst h')
      have hne : (c == a) = false := by simp [hca]
      simp only [List.lookup, hne]
      exact ih c p hnd.2 h'

theorem nodeChars_pairs : ∀ (o : Option HuffmanNode),
    nodeChars o = (nodePairs o).map Prod.fst := by
  intro o
  induction o using nodePairs.induct with
  | case1 => simp [nodeChars, nodePairs]
  | case2 c f left right => simp [nodeChars, nodePairs]
  | case3 f left right ihl ihr => simp [nodeChars, nodePairs, ihl, ihr]

theorem trav_leafData : ∀ (t : HuffmanNode), Full t → ∀ (pre : List Bool), pre ≠ [] →
    (traverse (some t) pre).map (fun e => (e.1, e.2.length))
      = (leafData (some t) pre.length).map (fun x => (x.1, x.2.2)) := by
  intro t hf
  induction hf with
  | leaf c f => intro pre hpre; simp [traverse, leafData, if_neg hpre]
  | node f l r hfl hfr ihl ihr =>
    intro pre hpre
    have h1 := ihl (pre ++ [false]) (by simp)
    have h2 := ihr (pre ++ [true]) (by simp)
    simp only [List.length_append, List.length_cons, List.length_nil] at h1 h2
    simp [traverse, leafData, h1, h2]

theorem ct_leafData (f0 : Nat) (l r : HuffmanNode) (hfl : Full l) (hfr : Full r) :
    (build_code_table (some (.mk none f0 (some l) (some r)))).map
        (fun e => (e.1, e.2.length))
      = (leafData (some (.mk none f0 (some l) (some r))) 0).map (fun x => (x.1, x.2.2)) := by
  have h1 := trav_leafData l hfl [false] (by simp)
  have h2 := trav_leafData r hfr [true] (by simp)
  simp only [List.length_cons, List.length_nil] at h1 h2
  simp [build_code_table, traverse, leafData, h1, h2]

theorem hcost_weighted (ft : List (Char × Nat)) (hnd : (ft.map Prod.fst).Nodup)
    (f0 : Nat) (l r : HuffmanNode)
    (hroot : build_huffman_tree ft = some (.mk none f0 (some l) (some r)))
    (hg : Good (.mk none f0 (some l) (some r)))
    (hpairs : (nodePairs (some (.mk none f0 (some l) (some r)))).Perm ft) :
    hcost (some (.mk none f0 (some l) (some r)))
      = (ft.map fun pr => pr.2 * lenOf ft pr.1).sum := by
  have hgl : Good l ∧ Good r := by
    cases hg with
    | node l r hl hr => exact ⟨hl, hr⟩
  have hldc := leafData_cost _ hg 0
  rw [Nat.zero_mul, Nat.add_zero] at hldc
  have hct := ct_leafData f0 l r (good_full hgl.1) (good_full hgl.2)
  have hkeys : ((build_code_table (some (.mk none f0 (some l) (some r)))).map
      Prod.fst).Nodup := by
    rw [show (build_code_table (some (.mk none f0 (some l) (some r)))).map Prod.fst
        = nodeChars (some (.mk none f0 (some l) (some r))) from trav_fst _ _]
    rw [nodeChars_pairs]
    exact ((hpairs.map Prod.fst).nodup_iff).mpr hnd
  have hpt : ∀ x ∈ leafData (some (.mk none f0 (some l) (some r))) 0,
      lenOf ft x.1 = x.2.2 := by
    intro x hx
    have hmem : (x.1, x.2.2) ∈ (leafData (some (.mk none f0 (some l) (some r))) 0).map
        (fun y => (y.1, y.2.2)) := List.mem_map_of_mem _ hx
    rw [← hct] at hmem
    obtain ⟨e, he, hee⟩ := List.mem_map.mp hmem
    simp only [Prod.mk.injEq] at hee
    have hlk := lookup_of_mem_nodup _ e.1 e.2 hkeys (by
      rw [show (e.1, e.2) = e from rfl]
      exact he)
    unfold lenOf
    rw [hroot, ← hee.1, hlk]
    simp [hee.2]
  rw [← hldc]
  have hstep : (leafData (some (.mk none f0 (some l) (some r))) 0).map
      (fun x => x.2.1 * x.2.2)
      = (leafData (some (.mk none f0 (some l) (some r))) 0).map
        (fun x => x.2.1 * lenOf ft x.1) := by
    apply List.map_congr_left
    intro x hx
    rw [hpt x hx]
  rw [hstep]
  have hstep2 : (leafData (some (.mk none f0 (some l) (some r))) 0).map
      (fun x => x.2.1 * lenOf ft x.1)
      = ((leafData (some (.mk none f0 (some l) (some r))) 0).map
          (fun x => (x.1, x.2.1))).map (fun pr => pr.2 * lenOf ft pr.1) := by
    rw [List.map_map]
    rfl
  rw [hstep2, leafData_pairs]
  exact ((hpairs.map fun pr => pr.2 * lenOf ft pr.1).sum_eq)

theorem flatten_leaf_pairs (ft : List (Char × Nat)) :
    ((ft.map fun p => HuffmanNode.mk (some p.1) p.2 none none).map
      fun x => nodePairs (some x)).flatten = ft := by
  induction ft with
  | nil => simp
  | cons p rest ih => simpa [nodePairs] using ih

theorem built_tree_good (ft : List (Char × Nat)) (hlen2 : 2 ≤ ft.length) :
    ∃ f0 l r, build_huffman_tree ft = some (.mk none f0 (some l) (some r)) ∧
      Good (.mk none f0 (some l) (some r)) ∧
      (nodePairs (some (.mk none f0 (some l) (some r)))).Perm ft ∧
      ∀ (prof : List (Nat × Nat)) (m : Nat),
        (prof.map Prod.fst).Perm (ft.map Prod.snd) →
        (∀ x ∈ prof, x.2 ≤ m) → kraftS m prof ≤ 2 ^ m →
        hcost (some (.mk none f0 (some l) (some r))) ≤ profCost prof := by
  match ft, hlen2 with
  | p :: q :: rest, _ =>
    have hgood : ∀ x ∈ (p :: q :: rest).map
        (fun pr => HuffmanNode.mk (some pr.1) pr.2 none none), Good x := by
      intro x hx
      obtain ⟨pp, _, rfl⟩ := List.mem_map.mp hx
      exact Good.leaf _ _
    obtain ⟨t, ht, htg, htp⟩ := buildLoop_good_spec
      ((p :: q :: rest).map (fun pr => HuffmanNode.mk (some pr.1) pr.2 none none)).length
      ((p :: q :: rest).map fun pr => HuffmanNode.mk (some pr.1) pr.2 none none)
      (by simp) (by omega) hgood
    have hshape := buildLoop_shape _ _ t (by simp) ht
    have hbuild : build_huffman_tree (p :: q :: rest) =
        buildLoop ((p :: q :: rest).map
            (fun pr => HuffmanNode.mk (some pr.1) pr.2 none none)).length
          ((p :: q :: rest).map fun pr => HuffmanNode.mk (some pr.1) pr.2 none none) := rfl
    rw [flatten_leaf_pairs] at htp
    cases htg with
    | leaf c f => simp [HuffmanNode.char] at hshape
    | node l r hl hr =>
      refine ⟨l.freq + r.freq, l, r, by rw [hbuild]; exact ht,
        Good.node l r hl hr, htp, ?_⟩
      intro prof m hp hb hk
      have hw : ((p :: q :: rest).map
          (fun pr => HuffmanNode.mk (some pr.1) pr.2 none none)).map HuffmanNode.freq
          = (p :: q :: rest).map Prod.snd := by
        simp [List.map_map, Function.comp, HuffmanNode.freq]
      have hzero : (((p :: q :: rest).map
          (fun pr => HuffmanNode.mk (some pr.1) pr.2 none none)).map
            fun x => hcost (some x)).sum = 0 := by
        apply List.sum_eq_zero
        intro z hz
        obtain ⟨x, hx, rfl⟩ := List.mem_map.mp hz
        obtain ⟨pp, _, rfl⟩ := List.mem_map.mp hx
        simp [hcost]
      have hopt := buildLoop_optimal _ _ (by simp) (by omega) _ ht prof m
        (by rw [hw]; exact hp) hb hk
      rw [hzero, Nat.zero_add] at hopt
      exact hopt

/-! ### The Shannon–Fano length profile and its Kraft admissibility -/

theorem sfLen_le (S f : Nat) (hf : 0 < f) : S ≤ f * 2 ^ sfLen S f := by
  rcases Nat.eq_zero_or_pos S with rfl | hS
  · exact Nat.zero_le _
  · have hq1 : (S + f - 1) / f = (S - 1) / f + 1 := by
      have h : S + f - 1 = (S - 1) + f := by omega
      rw [h, Nat.add_div_right _ hf]
    have hdm := Nat.div_add_mod (S - 1) f
    have hmlt := Nat.mod_lt (S - 1) hf
    have hfq : S ≤ f * ((S + f - 1) / f) := by
      rw [hq1, Nat.mul_add, Nat.mul_one]
      omega
    calc S ≤ f * ((S + f - 1) / f) := hfq
      _ ≤ f * 2 ^ Nat.clog 2 ((S + f - 1) / f) :=
          Nat.mul_le_mul_left f (Nat.le_pow_clog (by norm_num) _)

theorem sfLen_lt (S f : Nat) (hf : 0 < f) (hfS : f ≤ S) (hS : 0 < S) :
    f * 2 ^ sfLen S f < 2 * S := by
  by_cases hq2 : (S + f - 1) / f ≤ 1
  · unfold sfLen
    rw [Nat.clog_of_right_le_one hq2]
    simp only [pow_zero, Nat.mul_one]
    omega
  · push_neg at hq2
    have hlt := Nat.pow_pred_clog_lt_self (b := 2) (by norm_num) (x := (S + f - 1) / f)
      (by omega)
    rw [Nat.pred_eq_sub_one] at hlt
    have hc1 : 1 ≤ Nat.clog 2 ((S + f - 1) / f) := Nat.clog_pos (by norm_num) (by omega)
    have hsplit : 2 ^ Nat.clog 2 ((S + f - 1) / f)
        = 2 * 2 ^ (Nat.clog 2 ((S + f - 1) / f) - 1) := by
      rw [← pow_succ']
      congr 1
      omega
    have hpow : 2 ^ Nat.clog 2 ((S + f - 1) / f) ≤ 2 * ((S + f - 1) / f - 1) := by
      rw [hsplit]
      omega
    have hq1 : (S + f - 1) / f = (S - 1) / f + 1 := by
      have h : S + f - 1 = (S - 1) + f := by omega
      rw [h, Nat.add_div_right _ hf]
    have hfq1 : f * ((S + f - 1) / f - 1) ≤ S - 1 := by
      rw [hq1, Nat.add_sub_cancel]
      calc f * ((S - 1) / f) = (S - 1) / f * f := by ring
        _ ≤ S - 1 := Nat.div_mul_le_self _ _
    unfold sfLen
    calc f * 2 ^ Nat.clog 2 ((S + f - 1) / f)
        ≤ f * (2 * ((S + f - 1) / f - 1)) := Nat.mul_le_mul_left f hpow
      _ = 2 * (f * ((S + f - 1) / f - 1)) := by ring
      _ ≤ 2 * (S - 1) := by omega
      _ < 2 * S := by omega

theorem le_foldr_max : ∀ (L : List Nat) (x : Nat), x ∈ L → x ≤ L.foldr max 0 := by
  intro L
  induction L with
  | nil => intro x h; simp at h
  | cons a rest ih =>
    intro x h
    rcases List.mem_cons.mp h with rfl | h'
    · exact le_max_left _ _
    · exact le_trans (ih x h') (le_max_right _ _)

theorem list_mul_sum (L : List (Char × Nat)) (f : Char × Nat → Nat) (c : Nat) :
    (L.map fun x => c * f x).sum = c * (L.map f).sum := by
  induction L with
  | nil => simp
  | cons a rest ih => simp [ih, Nat.mul_add]

theorem list_sum_mul (L : List (Char × Nat)) (f : Char × Nat → Nat) (c : Nat) :
    (L.map fun x => f x * c).sum = (L.map f).sum * c := by
  induction L with
  | nil => simp
  | cons a rest ih => simp [ih, Nat.add_mul]

theorem le_totalFreq : ∀ (ft : List (Char × Nat)) (p : Char × Nat), p ∈ ft →
    p.2 ≤ totalFreq ft := by
  intro ft
  induction ft with
  | nil => intro p h; simp at h
  | cons a rest ih =>
    intro p h
    rcases List.mem_cons.mp h with rfl | h'
    · simp [totalFreq]
    · have := ih p h'
      simp only [totalFreq, List.map_cons, List.sum_cons] at this ⊢
      omega

theorem sf_profile_kraft (ft : List (Char × Nat)) (hpos : ∀ p ∈ ft, 0 < p.2)
    (hS : 0 < totalFreq ft) :
    kraftS ((ft.map fun pr => sfLen (totalFreq ft) pr.2).foldr max 0)
      (ft.map fun pr => (pr.2, sfLen (totalFreq ft) pr.2)) ≤
    2 ^ ((ft.map fun pr => sfLen (totalFreq ft) pr.2).foldr max 0) := by
  apply Nat.le_of_mul_le_mul_left _ hS
  have h1 : totalFreq ft * kraftS ((ft.map fun pr => sfLen (totalFreq ft) pr.2).foldr max 0)
      (ft.map fun pr => (pr.2, sfLen (totalFreq ft) pr.2))
      = (ft.map fun pr => totalFreq ft *
          2 ^ ((ft.map fun pr => sfLen (totalFreq ft) pr.2).foldr max 0
            - sfLen (totalFreq ft) pr.2)).sum := by
    unfold kraftS
    rw [List.map_map, ← list_mul_sum]
    rfl
  rw [h1]
  have h2 : (ft.map fun pr => pr.2 *
      2 ^ ((ft.map fun pr => sfLen (totalFreq ft) pr.2).foldr max 0)).sum
      = totalFreq ft * 2 ^ ((ft.map fun pr => sfLen (totalFreq ft) pr.2).foldr max 0) := by
    rw [list_sum_mul]
    unfold totalFreq
    ring
  rw [← h2]
  apply List.sum_le_sum
  intro pr hpr
  have hle : sfLen (totalFreq ft) pr.2 ≤
      (ft.map fun pr => sfLen (totalFreq ft) pr.2).foldr max 0 :=
    le_foldr_max _ _ (List.mem_map_of_mem _ hpr)
  have hsf := sfLen_le (totalFreq ft) pr.2 (hpos pr hpr)
  calc totalFreq ft * 2 ^ ((ft.map fun pr => sfLen (totalFreq ft) pr.2).foldr max 0
          - sfLen (totalFreq ft) pr.2)
      ≤ (pr.2 * 2 ^ sfLen (totalFreq ft) pr.2) *
          2 ^ ((ft.map fun pr => sfLen (totalFreq ft) pr.2).foldr max 0
            - sfLen (totalFreq ft) pr.2) := Nat.mul_le_mul_right _ hsf
    _ = pr.2 * (2 ^ sfLen (totalFreq ft) pr.2 *
          2 ^ ((ft.map fun pr => sfLen (totalFreq ft) pr.2).foldr max 0
            - sfLen (totalFreq ft) pr.2)) := by ring
    _ = pr.2 * 2 ^ ((ft.map fun pr => sfLen (totalFreq ft) pr.2).foldr max 0) := by
        rw [← pow_add]
        congr 2
        omega

set_option maxHeartbeats 1000000 in
theorem huff_le_sf (ft : List (Char × Nat)) (hnd : (ft.map Prod.fst).Nodup)
    (hlen2 : 2 ≤ ft.length) (hpos : ∀ p ∈ ft, 0 < p.2) (hS : 0 < totalFreq ft) :
    (ft.map fun pr => pr.2 * lenOf ft pr.1).sum ≤
      (ft.map fun pr => pr.2 * sfLen (totalFreq ft) pr.2).sum := by
  obtain ⟨f0, l, r, hroot, hg, hpairs, hopt⟩ := built_tree_good ft hlen2
  have hbridge := hcost_weighted ft hnd f0 l r hroot hg hpairs
  rw [← hbridge]
  have hweights : ((ft.map fun pr => (pr.2, sfLen (totalFreq ft) pr.2)).map Prod.fst).Perm
      (ft.map Prod.snd) := by
    have heq : (ft.map fun pr => (pr.2, sfLen (totalFreq ft) pr.2)).map Prod.fst
        = ft.map Prod.snd := by
      rw [List.map_map]
      apply List.map_congr_left
      intro pr _
      rfl
    rw [heq]
  have hbounds : ∀ x ∈ ft.map fun pr => (pr.2, sfLen (totalFreq ft) pr.2),
      x.2 ≤ (ft.map fun pr => sfLen (totalFreq ft) pr.2).foldr max 0 := by
    intro x hx
    obtain ⟨pr, hpr, rfl⟩ := List.mem_map.mp hx
    exact le_foldr_max _ _ (List.mem_map_of_mem _ hpr)
  have happ := hopt (ft.map fun pr => (pr.2, sfLen (totalFreq ft) pr.2))
    ((ft.map fun pr => sfLen (totalFreq ft) pr.2).foldr max 0)
    hweights hbounds (sf_profile_kraft ft hpos hS)
  have hpc : profCost (ft.map fun pr => (pr.2, sfLen (totalFreq ft) pr.2)) =
      (ft.map fun pr => pr.2 * sfLen (totalFreq ft) pr.2).sum := by
    unfold profCost
    rw [List.map_map]
    apply congrArg
    apply List.map_congr_left
    intro pr _
    rfl
  rw [hpc] at happ
  exact happ

/-! ### The real-valued Kraft inequality for the generated code -/

theorem trav_kraft_real : ∀ (t : HuffmanNode), Full t → ∀ (pre : List Bool), pre ≠ [] →
    ((traverse (some t) pre).map fun e => ((1 : ℝ) / 2) ^ e.2.length).sum
      = ((1 : ℝ) / 2) ^ pre.length := by
  intro t hf
  induction hf with
  | leaf c f =>
    intro pre hpre
    simp [traverse, if_neg hpre]
  | node f l r hfl hfr ihl ihr =>
    intro pre hpre
    have h1 := ihl (pre ++ [false]) (by simp)
    have h2 := ihr (pre ++ [true]) (by simp)
    simp only [List.length_append, List.length_cons, List.length_nil] at h1 h2
    have heq : traverse (some (.mk none f (some l) (some r))) pre
        = traverse (some l) (pre ++ [false]) ++ traverse (some r) (pre ++ [true]) := by
      simp [traverse]
    rw [heq, List.map_append, List.sum_append, h1, h2, pow_succ]
    ring

theorem kraft_ft (ft : List (Char × Nat)) (hne : ft ≠ [])
    (hnd : (ft.map Prod.fst).Nodup) :
    (ft.map fun pr => ((1 : ℝ) / 2) ^ lenOf ft pr.1).sum ≤ 1 := by
  rcases build_tree_cases ft hne with ⟨c, f, rfl, hb⟩ |
    ⟨t, hb, htf, hchar, ⟨a, ha⟩, ⟨b, hbr⟩, hperm⟩
  · -- single entry: the code table is [(c, "0")], Kraft sum 1/2
    have hct : build_code_table
        (some (.mk none f (some (.mk (some c) f none none)) none)) = [(c, [false])] := by
      simp [build_code_table, traverse]
    have hlen : lenOf [(c, f)] c = 1 := by
      unfold lenOf
      rw [hb, hct]
      simp [List.lookup]
    simp only [List.map_cons, List.map_nil, List.sum_cons, List.sum_nil, hlen]
    norm_num
  · -- full tree: the Kraft sum over the table is exactly 1
    cases htf with
    | leaf c0 f0 => simp [HuffmanNode.char] at hchar
    | node f0 l r hfl hfr =>
      have hkeys : ((build_code_table (some (.mk none f0 (some l) (some r)))).map
          Prod.fst).Nodup := by
        rw [show (build_code_table (some (.mk none f0 (some l) (some r)))).map Prod.fst
            = nodeChars (some (.mk none f0 (some l) (some r))) from trav_fst _ _]
        exact (hperm.nodup_iff).mpr hnd
      have hkperm : ((build_code_table (some (.mk none f0 (some l) (some r)))).map
          Prod.fst).Perm (ft.map Prod.fst) := by
        rw [show (build_code_table (some (.mk none f0 (some l) (some r)))).map Prod.fst
            = nodeChars (some (.mk none f0 (some l) (some r))) from trav_fst _ _]
        exact hperm
      -- Σ over the table equals 1
      have h1 := trav_kraft_real l hfl [false] (by simp)
      have h2 := trav_kraft_real r hfr [true] (by simp)
      simp only [List.length_cons, List.length_nil] at h1 h2
      have hctsum : ((build_code_table (some (.mk none f0 (some l) (some r)))).map
          fun e => ((1 : ℝ) / 2) ^ e.2.length).sum = 1 := by
        have hct : build_code_table (some (.mk none f0 (some l) (some r)))
            = traverse (some l) [false] ++ traverse (some r) [true] := by
          simp [build_code_table, traverse]
        rw [hct, List.map_append, List.sum_append, h1, h2]
        norm_num
      -- reindex from the table to the frequency table
      have hstep : ((build_code_table (some (.mk none f0 (some l) (some r)))).map
          fun e => ((1 : ℝ) / 2) ^ e.2.length)
          = ((build_code_table (some (.mk none f0 (some l) (some r)))).map
            fun e => ((1 : ℝ) / 2) ^ lenOf ft e.1) := by
        apply List.map_congr_left
        intro e he
        have hlk := lookup_of_mem_nodup _ e.1 e.2 hkeys (by
          rw [show (e.1, e.2) = e from rfl]; exact he)
        unfold lenOf
        rw [hb, hlk]
        rfl
      have hstep2 : ((build_code_table (some (.mk none f0 (some l) (some r)))).map
          fun e => ((1 : ℝ) / 2) ^ lenOf ft e.1)
          = (((build_code_table (some (.mk none f0 (some l) (some r)))).map Prod.fst).map
            fun c => ((1 : ℝ) / 2) ^ lenOf ft c) := by
        rw [List.map_map]
        rfl
      have hstep3 : (ft.map fun pr => ((1 : ℝ) / 2) ^ lenOf ft pr.1)
          = ((ft.map Prod.fst).map fun c => ((1 : ℝ) / 2) ^ lenOf ft c) := by
        rw [List.map_map]
        rfl
      rw [hstep3, ← (hkperm.map fun c => ((1 : ℝ) / 2) ^ lenOf ft c).sum_eq,
        ← hstep2, ← hstep, hctsum]

/-! ### Real-valued sum helpers and the entropy identity -/

theorem cast_weighted_sum (ft : List (Char × Nat)) (g : Char × Nat → Nat) :
    (ft.map fun pr => (pr.2 : ℝ) * (g pr : ℝ)).sum
      = (((ft.map fun pr => pr.2 * g pr).sum : Nat) : ℝ) := by
  induction ft with
  | nil => simp
  | cons p rest ih =>
    simp only [List.map_cons, List.sum_cons, ih]
    push_cast
    ring

theorem cast_totalFreq (ft : List (Char × Nat)) :
    (ft.map fun pr => ((pr.2 : Nat) : ℝ)).sum = ((totalFreq ft : Nat) : ℝ) := by
  induction ft with
  | nil => simp [totalFreq]
  | cons p rest ih =>
    simp only [List.map_cons, List.sum_cons, ih, totalFreq]
    push_cast
    ring

theorem list_mul_sum_real (L : List (Char × Nat)) (f : Char × Nat → ℝ) (c : ℝ) :
    (L.map fun x => c * f x).sum = c * (L.map f).sum := by
  induction L with
  | nil => simp
  | cons a rest ih => simp [ih, mul_add]

theorem list_sum_neg_real (L : List (Char × Nat)) (f : Char × Nat → ℝ) :
    -(L.map f).sum = (L.map fun x => -(f x)).sum := by
  induction L with
  | nil => simp
  | cons a rest ih => simp [← ih]; ring

theorem list_sum_add_real (L : List (Char × Nat)) (f g : Char × Nat → ℝ) :
    (L.map fun x => f x + g x).sum = (L.map f).sum + (L.map g).sum := by
  induction L with
  | nil => simp
  | cons a rest ih => simp [ih]; ring

theorem list_sum_le_real (L : List (Char × Nat)) (f g : Char × Nat → ℝ)
    (h : ∀ x ∈ L, f x ≤ g x) : (L.map f).sum ≤ (L.map g).sum := by
  induction L with
  | nil => simp
  | cons a rest ih =>
    simp only [List.map_cons, List.sum_cons]
    have h1 := h a (List.mem_cons_self _ _)
    have h2 := ih fun x hx => h x (List.mem_cons_of_mem _ hx)
    exact add_le_add h1 h2

theorem list_sum_lt_real (L : List (Char × Nat)) (f g : Char × Nat → ℝ) (hne : L ≠ [])
    (h : ∀ x ∈ L, f x < g x) : (L.map f).sum < (L.map g).sum := by
  match L, hne with
  | a :: rest, _ =>
    simp only [List.map_cons, List.sum_cons]
    have h1 := h a (List.mem_cons_self _ _)
    have h2 := list_sum_le_real rest f g fun x hx =>
      le_of_lt (h x (List.mem_cons_of_mem _ hx))
    exact add_lt_add_of_lt_of_le h1 h2

theorem totalFreq_pos (ft : List (Char × Nat)) (hne : ft ≠ [])
    (hpos : ∀ p ∈ ft, 0 < p.2) : 0 < totalFreq ft := by
  match ft, hne with
  | p :: rest, _ =>
    have h1 := hpos p (List.mem_cons_self _ _)
    have h2 := le_totalFreq (p :: rest) p (List.mem_cons_self _ _)
    omega

theorem entropy_sum (ft : List (Char × Nat)) (hpos : ∀ p ∈ ft, 0 < p.2)
    (hS : 0 < totalFreq ft) :
    (totalFreq ft : ℝ) * calculate_entropy ft (totalFreq ft)
      = (ft.map fun pr => (pr.2 : ℝ) *
          Real.logb 2 ((totalFreq ft : ℝ) / (pr.2 : ℝ))).sum := by
  have hs : (0 : ℝ) < (totalFreq ft : ℝ) := by exact_mod_cast hS
  unfold calculate_entropy
  rw [mul_neg, ← list_mul_sum_real, list_sum_neg_real]
  apply congrArg
  apply List.map_congr_left
  intro pr hpr
  have hf : (0 : ℝ) < (pr.2 : ℝ) := by exact_mod_cast hpos pr hpr
  have hlog : Real.logb 2 ((totalFreq ft : ℝ) / (pr.2 : ℝ))
      = -Real.logb 2 ((pr.2 : ℝ) / (totalFreq ft : ℝ)) := by
    rw [← Real.logb_inv, inv_div]
  rw [hlog]
  field_simp

theorem list_sum_sub_div (L : List (Char × Nat)) (f g : Char × Nat → ℝ) (c : ℝ) :
    (L.map fun x => (f x - g x) / c).sum = ((L.map f).sum - (L.map g).sum) / c := by
  induction L with
  | nil => simp
  | cons a rest ih =>
    simp only [List.map_cons, List.sum_cons, ih]
    ring

theorem entropy_le_avg (ft : List (Char × Nat)) (hne : ft ≠ [])
    (hnd : (ft.map Prod.fst).Nodup) (hpos : ∀ p ∈ ft, 0 < p.2) :
    calculate_entropy ft (totalFreq ft) ≤ avg_code_length ft := by
  have hS := totalFreq_pos ft hne hpos
  have hs : (0 : ℝ) < (totalFreq ft : ℝ) := by exact_mod_cast hS
  unfold avg_code_length
  rw [le_div_iff₀ hs, mul_comm, entropy_sum ft hpos hS]
  have hlog2 : (0 : ℝ) < Real.log 2 := Real.log_pos (by norm_num)
  have hkey : ∀ p ∈ ft, (p.2 : ℝ) * Real.logb 2 ((totalFreq ft : ℝ) / (p.2 : ℝ))
      ≤ ((p.2 : ℝ) * (lenOf ft p.1 : ℝ)
        + ((totalFreq ft : ℝ) * ((1 : ℝ) / 2) ^ lenOf ft p.1 - (p.2 : ℝ)) / Real.log 2) := by
    intro p hp
    have hf : (0 : ℝ) < (p.2 : ℝ) := by exact_mod_cast hpos p hp
    have hxpos : (0 : ℝ) < (totalFreq ft : ℝ) / (p.2 : ℝ) * ((1 : ℝ) / 2) ^ lenOf ft p.1 := by
      positivity
    have hhalf : Real.logb 2 (((1 : ℝ) / 2) ^ lenOf ft p.1) = -(lenOf ft p.1 : ℝ) := by
      rw [Real.logb_pow, show ((1 : ℝ) / 2) = (2 : ℝ)⁻¹ by norm_num, Real.logb_inv,
        Real.logb_self_eq_one (by norm_num)]
      ring
    have hdecomp : Real.logb 2 ((totalFreq ft : ℝ) / (p.2 : ℝ))
        = Real.logb 2 ((totalFreq ft : ℝ) / (p.2 : ℝ) * ((1 : ℝ) / 2) ^ lenOf ft p.1)
          + (lenOf ft p.1 : ℝ) := by
      rw [Real.logb_mul (by positivity) (by positivity), hhalf]
      ring
    have hgibbs : Real.logb 2 ((totalFreq ft : ℝ) / (p.2 : ℝ) * ((1 : ℝ) / 2) ^ lenOf ft p.1)
        ≤ ((totalFreq ft : ℝ) / (p.2 : ℝ) * ((1 : ℝ) / 2) ^ lenOf ft p.1 - 1) / Real.log 2 := by
      rw [Real.logb]
      gcongr
      exact Real.log_le_sub_one_of_pos hxpos
    calc (p.2 : ℝ) * Real.logb 2 ((totalFreq ft : ℝ) / (p.2 : ℝ))
        = (p.2 : ℝ) * (lenOf ft p.1 : ℝ) + (p.2 : ℝ) *
            Real.logb 2 ((totalFreq ft : ℝ) / (p.2 : ℝ) * ((1 : ℝ) / 2) ^ lenOf ft p.1) := by
          rw [hdecomp]; ring
      _ ≤ (p.2 : ℝ) * (lenOf ft p.1 : ℝ) + (p.2 : ℝ) *
            (((totalFreq ft : ℝ) / (p.2 : ℝ) * ((1 : ℝ) / 2) ^ lenOf ft p.1 - 1)
              / Real.log 2) := by
          have := mul_le_mul_of_nonneg_left hgibbs (le_of_lt hf)
          linarith
      _ = (p.2 : ℝ) * (lenOf ft p.1 : ℝ)
          + ((totalFreq ft : ℝ) * ((1 : ℝ) / 2) ^ lenOf ft p.1 - (p.2 : ℝ)) / Real.log 2 := by
          field_simp
          ring
  have hsum := list_sum_le_real ft _ _ hkey
  rw [list_sum_add_real] at hsum
  have hcorr : (ft.map fun p => ((totalFreq ft : ℝ) * ((1 : ℝ) / 2) ^ lenOf ft p.1
      - (p.2 : ℝ)) / Real.log 2).sum ≤ 0 := by
    have hK := kraft_ft ft hne hnd
    have h1 := list_sum_sub_div ft
      (fun p => (totalFreq ft : ℝ) * ((1 : ℝ) / 2) ^ lenOf ft p.1)
      (fun p => ((p.2 : Nat) : ℝ)) (Real.log 2)
    rw [h1, list_mul_sum_real, cast_totalFreq]
    apply div_nonpos_of_nonpos_of_nonneg _ (le_of_lt hlog2)
    nlinarith
  linarith

theorem avg_lt_entropy_succ (ft : List (Char × Nat)) (hnd : (ft.map Prod.fst).Nodup)
    (hlen2 : 2 ≤ ft.length) (hpos : ∀ p ∈ ft, 0 < p.2) :
    avg_code_length ft < calculate_entropy ft (totalFreq ft) + 1 := by
  have hne : ft ≠ [] := by intro h; rw [h] at hlen2; simp at hlen2
  have hS := totalFreq_pos ft hne hpos
  have hs : (0 : ℝ) < (totalFreq ft : ℝ) := by exact_mod_cast hS
  unfold avg_code_length
  rw [div_lt_iff₀ hs]
  have hNcast := cast_weighted_sum ft (fun pr => lenOf ft pr.1)
  have hSFcast := cast_weighted_sum ft (fun pr => sfLen (totalFreq ft) pr.2)
  have hle : (((ft.map fun pr => pr.2 * lenOf ft pr.1).sum : Nat) : ℝ)
      ≤ (((ft.map fun pr => pr.2 * sfLen (totalFreq ft) pr.2).sum : Nat) : ℝ) := by
    exact_mod_cast huff_le_sf ft hnd hlen2 hpos hS
  have hstrict : (ft.map fun pr => (pr.2 : ℝ) * (sfLen (totalFreq ft) pr.2 : ℝ)).sum
      < (ft.map fun pr => (pr.2 : ℝ) *
          (Real.logb 2 ((totalFreq ft : ℝ) / (pr.2 : ℝ)) + 1)).sum := by
    apply list_sum_lt_real ft _ _ hne
    intro p hp
    have hf0 : 0 < p.2 := hpos p hp
    have hf : (0 : ℝ) < (p.2 : ℝ) := by exact_mod_cast hf0
    have hfS : p.2 ≤ totalFreq ft := le_totalFreq ft p hp
    have hsf := sfLen_lt (totalFreq ft) p.2 hf0 hfS hS
    have hsfr : (p.2 : ℝ) * (2 : ℝ) ^ sfLen (totalFreq ft) p.2 < 2 * (totalFreq ft : ℝ) := by
      have hc : ((p.2 * 2 ^ sfLen (totalFreq ft) p.2 : Nat) : ℝ)
          < ((2 * totalFreq ft : Nat) : ℝ) := by exact_mod_cast hsf
      push_cast at hc
      linarith
    have hlt : (sfLen (totalFreq ft) p.2 : ℝ)
        < Real.logb 2 ((totalFreq ft : ℝ) / (p.2 : ℝ)) + 1 := by
      have h2l : (2 : ℝ) ^ sfLen (totalFreq ft) p.2
          < 2 * (totalFreq ft : ℝ) / (p.2 : ℝ) := by
        rw [lt_div_iff₀ hf]
        linarith
      have hmono := Real.logb_lt_logb (b := 2) (by norm_num)
        (show (0 : ℝ) < (2 : ℝ) ^ sfLen (totalFreq ft) p.2 by positivity) h2l
      rw [Real.logb_pow, Real.logb_self_eq_one (by norm_num)] at hmono
      have hsplit : Real.logb 2 (2 * (totalFreq ft : ℝ) / (p.2 : ℝ))
          = 1 + Real.logb 2 ((totalFreq ft : ℝ) / (p.2 : ℝ)) := by
        rw [show 2 * (totalFreq ft : ℝ) / (p.2 : ℝ)
            = 2 * ((totalFreq ft : ℝ) / (p.2 : ℝ)) by ring,
          Real.logb_mul (by norm_num) (by positivity),
          Real.logb_self_eq_one (by norm_num)]
      rw [hsplit] at hmono
      linarith
    exact mul_lt_mul_of_pos_left hlt hf
  have hrhs : (ft.map fun pr => (pr.2 : ℝ) *
      (Real.logb 2 ((totalFreq ft : ℝ) / (pr.2 : ℝ)) + 1)).sum
      = (calculate_entropy ft (totalFreq ft) + 1) * (totalFreq ft : ℝ) := by
    have hsplit : (ft.map fun pr => (pr.2 : ℝ) *
        (Real.logb 2 ((totalFreq ft : ℝ) / (pr.2 : ℝ)) + 1)).sum
        = (ft.map fun pr => (pr.2 : ℝ) *
            Real.logb 2 ((totalFreq ft : ℝ) / (pr.2 : ℝ))).sum
          + (ft.map fun pr => ((pr.2 : Nat) : ℝ)).sum := by
      rw [← list_sum_add_real]
      apply congrArg
      apply List.map_congr_left
      intro pr _
      ring
    rw [hsplit, ← entropy_sum ft hpos hS, cast_totalFreq]
    ring
  calc (ft.map fun pr => (pr.2 : ℝ) * (lenOf ft pr.1 : ℝ)).sum
      = (((ft.map fun pr => pr.2 * lenOf ft pr.1).sum : Nat) : ℝ) := hNcast
    _ ≤ (((ft.map fun pr => pr.2 * sfLen (totalFreq ft) pr.2).sum : Nat) : ℝ) := hle
    _ = (ft.map fun pr => (pr.2 : ℝ) * (sfLen (totalFreq ft) pr.2 : ℝ)).sum := hSFcast.symm
    _ < (ft.map fun pr => (pr.2 : ℝ) *
          (Real.logb 2 ((totalFreq ft : ℝ) / (pr.2 : ℝ)) + 1)).sum := hstrict
    _ = (calculate_entropy ft (totalFreq ft) + 1) * (totalFreq ft : ℝ) := hrhs

theorem lenOf_single (c : Char) (f : Nat) : lenOf [(c, f)] c = 1 := by
  unfold lenOf
  rw [show build_huffman_tree [(c, f)]
      = some (.mk none f (some (.mk (some c) f none none)) none) from rfl]
  have hct : build_code_table
      (some (.mk none f (some (.mk (some c) f none none)) none)) = [(c, [false])] := by
    simp [build_code_table, traverse]
  rw [hct]
  simp [List.lookup]

theorem single_values (c : Char) (f : Nat) (hf : 0 < f) :
    avg_code_length [(c, f)] = 1 ∧ calculate_entropy [(c, f)] (totalFreq [(c, f)]) = 0 := by
  have hfr : (0 : ℝ) < (f : ℝ) := by exact_mod_cast hf
  constructor
  · unfold avg_code_length
    simp only [List.map_cons, List.map_nil, List.sum_cons, List.sum_nil, lenOf_single,
      totalFreq]
    push_cast
    field_simp
  · unfold calculate_entropy totalFreq
    simp only [List.map_cons, List.map_nil, List.sum_cons, List.sum_nil, Nat.add_zero]
    rw [div_self (ne_of_gt hfr)]
    simp [Real.logb_one]

/-- Claim C8, counterexample: for the single-symbol frequency table
{a:1} the average code length is 1 (the lone symbol gets the one-bit
code "0") while the Shannon entropy is 0, so the claimed strict bound
"average < entropy + 1" fails: 1 < 0 + 1 is false. -/
theorem C8_counterexample :
    avg_code_length [('a', 1)] = 1 ∧
    calculate_entropy [('a', 1)] (totalFreq [('a', 1)]) = 0 ∧
    ¬(avg_code_length [('a', 1)] <
        calculate_entropy [('a', 1)] (totalFreq [('a', 1)]) + 1) := by
  obtain ⟨h1, h2⟩ := single_values 'a' 1 (by norm_num)
  exact ⟨h1, h2, by rw [h1, h2]; norm_num⟩

/-- Claim C8, amended: for every non-empty frequency table with
positive counts and distinct keys, the frequency-weighted average code
length is at least the Shannon entropy and at most entropy + 1; the
strict bound "less than entropy + 1" holds whenever the table has at
least two distinct symbols (a single-symbol table attains average = 1 =
entropy + 1 exactly, because its forced one-bit code meets entropy 0). -/
theorem C8_amended_entropy_bounds (ft : List (Char × Nat)) (hne : ft ≠ [])
    (hnd : (ft.map Prod.fst).Nodup) (hpos : ∀ p ∈ ft, 0 < p.2) :
    calculate_entropy ft (totalFreq ft) ≤ avg_code_length ft ∧
    avg_code_length ft ≤ calculate_entropy ft (totalFreq ft) + 1 ∧
    (2 ≤ ft.length → avg_code_length ft < calculate_entropy ft (totalFreq ft) + 1) := by
  refine ⟨entropy_le_avg ft hne hnd hpos, ?_,
    fun h2 => avg_lt_entropy_succ ft hnd h2 hpos⟩
  by_cases h2 : 2 ≤ ft.length
  · exact le_of_lt (avg_lt_entropy_succ ft hnd h2 hpos)
  · have hlen1 : ft.length = 1 := by
      have := List.length_pos.mpr hne
      omega
    obtain ⟨p, hp⟩ := List.length_eq_one.mp hlen1
    subst hp
    obtain ⟨c, f⟩ := p
    obtain ⟨ha, hh⟩ := single_values c f (hpos (c, f) (List.mem_cons_self _ _))
    rw [ha, hh]
    norm_num

/-- Witness for C8 at the table {a:4, b:3, c:2}. -/
theorem C8_amended_entropy_bounds_witness :
    (([('a', 4), ('b', 3), ('c', 2)] : List (Char × Nat)) ≠ []) ∧
    ((([('a', 4), ('b', 3), ('c', 2)] : List (Char × Nat)).map Prod.fst).Nodup) ∧
    (∀ p ∈ ([('a', 4), ('b', 3), ('c', 2)] : List (Char × Nat)), 0 < p.2) ∧
    (calculate_entropy [('a', 4), ('b', 3), ('c', 2)]
        (totalFreq [('a', 4), ('b', 3), ('c', 2)])
      ≤ avg_code_length [('a', 4), ('b', 3), ('c', 2)] ∧
    avg_code_length [('a', 4), ('b', 3), ('c', 2)]
      ≤ calculate_entropy [('a', 4), ('b', 3), ('c', 2)]
          (totalFreq [('a', 4), ('b', 3), ('c', 2)]) + 1 ∧
    (2 ≤ ([('a', 4), ('b', 3), ('c', 2)] : List (Char × Nat)).length →
      avg_code_length [('a', 4), ('b', 3), ('c', 2)]
        < calculate_entropy [('a', 4), ('b', 3), ('c', 2)]
            (totalFreq [('a', 4), ('b', 3), ('c', 2)]) + 1)) :=
  ⟨by decide, by decide, by decide,
    C8_amended_entropy_bounds _ (by decide) (by decide) (by decide)⟩

end FileCompressor
